import Mathlib

/-!
Verification development for the `composer` circuit-composition tool.

The Rust sources are shallowly embedded below:
* `Gate`, `Circuit` model the external `boolean_circuit` representation
  (structurally interned gates are modelled as trees, since interning makes
  structural equality coincide with node identity).
* `build_bitmap` / `validate_inputs` embed `src/bitmap.rs`.
* `validate_permutation` embeds `src/permutation.rs`.
* `interleave_permutation` embeds `src/combinations.rs`.
* The `Concatenator` state machine embeds `src/concatenator.rs`; Rust panics
  are modelled as `Except CPanic` errors, and each recursion level
  (`circuit_index`) is built from the previous one by plain `Nat` recursion.

Error values that Rust renders with `format!` are modelled as structured
error kinds carrying the same payloads, following the error-kind view of the
specification.
-/

/-- Gate of the external `boolean_circuit` crate: an immutable DAG node.
Structural interning makes two structurally equal gates identical, so a tree
representation with structural equality is a faithful model. -/
inductive Gate where
  | Variable (name : String)
  | Constant (b : Bool)
  | Negation (g : Gate)
  | Conjunction (l r : Gate)
  | Disjunction (l r : Gate)
  | Xor (l r : Gate)
deriving DecidableEq

/-- Evaluation of a gate under an assignment of booleans to variable names
(the external crate's `evaluate`). -/
def evalGate (a : String → Bool) : Gate → Bool
  | .Variable name => a name
  | .Constant b => b
  | .Negation g => ! evalGate a g
  | .Conjunction l r => evalGate a l && evalGate a r
  | .Disjunction l r => evalGate a l || evalGate a r
  | .Xor l r => Bool.xor (evalGate a l) (evalGate a r)

/-- Variables referenced by a gate. -/
def gateVars : Gate → List String
  | .Variable name => [name]
  | .Constant _ => []
  | .Negation g => gateVars g
  | .Conjunction l r => gateVars l ++ gateVars r
  | .Disjunction l r => gateVars l ++ gateVars r
  | .Xor l r => gateVars l ++ gateVars r

/-- Direct operands of a gate. -/
def children : Gate → List Gate
  | .Variable _ => []
  | .Constant _ => []
  | .Negation g => [g]
  | .Conjunction l r => [l, r]
  | .Disjunction l r => [l, r]
  | .Xor l r => [l, r]

/-- Post-order enumeration of a gate's dependency DAG (the crate's
`post_visit_iter`): operands are listed before the gates using them.  The
iterator of the crate yields each distinct node once; here duplicates may
occur, but the concatenator skips any node already in its substitution cache,
so the processing coincides. -/
def postVisit : Gate → List Gate
  | .Variable name => [.Variable name]
  | .Constant b => [.Constant b]
  | .Negation g => postVisit g ++ [.Negation g]
  | .Conjunction l r => postVisit l ++ postVisit r ++ [.Conjunction l r]
  | .Disjunction l r => postVisit l ++ postVisit r ++ [.Disjunction l r]
  | .Xor l r => postVisit l ++ postVisit r ++ [.Xor l r]

/-- Circuit of the external crate: an ordered list of uniquely named inputs
and an ordered list of outputs, each a gate with an optional name (the empty
string denotes an anonymous output). -/
structure Circuit where
  inputs : List String
  outputs : List (Gate × String)
deriving DecidableEq, Inhabited

/-- Well-formedness from the data model: input names are pairwise distinct
and every variable referenced by an output gate is a declared input. -/
def wellFormed (c : Circuit) : Prop :=
  c.inputs.Nodup ∧ ∀ p ∈ c.outputs, ∀ v ∈ gateVars p.1, v ∈ c.inputs

instance (c : Circuit) : Decidable (wellFormed c) := by
  unfold wellFormed; infer_instance

/-- Output vector of a circuit under an assignment. -/
def evalOutputs (c : Circuit) (a : String → Bool) : List Bool :=
  c.outputs.map (fun p => evalGate a p.1)

/-- Index of a name in a name list, taking the last occurrence on duplicates:
this models the `HashMap` built by enumerating the names in order, where a
later insertion overwrites an earlier one. -/
def lastIdxOf (names : List String) (name : String) : Option Nat :=
  names.enum.foldl (fun acc p => if p.2 = name then some p.1 else acc) none

/-- Evaluation of a circuit on a positional vector of input values: input
number `p` receives `vals.getD p false`. -/
def evalOn (c : Circuit) (vals : List Bool) : List Bool :=
  evalOutputs c (fun name =>
    match lastIdxOf c.inputs name with
    | some p => vals.getD p false
    | none => false)

/-- Modelled from the spec: the external constructor
`Circuit::from_unnamed_outputs` builds a circuit from gates with anonymous
outputs; its inputs are the referenced variables (order irrelevant for the
claims below, first-appearance order is used). -/
def from_unnamed_outputs (gs : List Gate) : Circuit :=
  ⟨(gs.flatMap gateVars).eraseDups, gs.map (fun g => (g, ""))⟩

/-- Modelled from the spec: the external `reduce_conjunction` folds gates
into a conjunction with identity `true` on the empty sequence.  The crate
produces a balanced tree; evaluation is associative, so a left fold is an
evaluation-faithful model. -/
def reduce_conjunction (gs : List Gate) : Gate :=
  match gs with
  | [] => .Constant true
  | g :: rest => rest.foldl .Conjunction g

/-- Modelled from the spec: the external `reduce_disjunction`, identity
`false` on the empty sequence. -/
def reduce_disjunction (gs : List Gate) : Gate :=
  match gs with
  | [] => .Constant false
  | g :: rest => rest.foldl .Disjunction g

/-- Error of `validate_inputs` in `bitmap.rs`; the Rust code renders it as
the string "Expected a power of two as number of inputs, but got {n} inputs". -/
inductive BitmapError where
  | notPowerOfTwo (count : Nat)
deriving DecidableEq

/-- Embeds `validate_inputs` of `src/bitmap.rs` (lines 36-58).  Table entries
are `u64` and the length is `usize`; both embed into `Nat` (no arithmetic in
the function can overflow, and the `assert!(input_bits < 64)` cannot fire for
a list that exists in memory, so it is not modelled). -/
def validate_inputs (inputs : List Nat) : Except BitmapError (Nat × Nat) :=
  if inputs.isEmpty then .ok (0, 0)
  else
    let input_bits := Nat.log2 inputs.length
    if 1 <<< input_bits ≠ inputs.length then .error (.notPowerOfTwo inputs.length)
    else
      let largest_output := inputs.foldl max 0
      if largest_output = 0 then .ok (input_bits, 0)
      else
        let output_bits := Nat.log2 largest_output
        if 1 <<< output_bits > largest_output then (.ok (input_bits, output_bits))
        else .ok (input_bits, output_bits + 1)

/-- Embeds `build_bitmap` of `src/bitmap.rs` (lines 7-33). -/
def build_bitmap (inputs : List Nat) : Except BitmapError Circuit := do
  let (input_bits, output_bits) ← validate_inputs inputs
  let input_gates := (List.range input_bits).map (fun i => Gate.Variable ("i" ++ Nat.repr i))
  let output_gates := (List.range output_bits).map (fun bit =>
    reduce_disjunction
      (((inputs.enum.filter (fun p => p.2 &&& (1 <<< bit) ≠ 0)).map (fun p =>
        reduce_conjunction ((List.range input_bits).map (fun input_bit =>
          let input_gate := input_gates.getD input_bit (.Constant false)
          if p.1 &&& (1 <<< input_bit) ≠ 0 then input_gate else .Negation input_gate))))))
  .ok (from_unnamed_outputs output_gates)

/-- Errors of `validate_permutation` in `src/permutation.rs`, as structured
kinds: the Rust code renders them as format strings carrying the same
payloads.  `assertionFailure` models the final `assert!` panic. -/
inductive PermError where
  | parseFailure (token cause : String)
  | outOfRange (value bound : Nat)
  | duplicateValue (value : Nat)
  | assertionFailure
deriving DecidableEq

/-- Embeds `str::parse::<u64>` as used on the permutation tokens: an optional
leading `+` followed by one or more ASCII digits, with the value bounded by
`u64::MAX`; the cause strings are those produced by Rust. -/
def parseU64 (s : String) : Except String Nat :=
  let cs := s.data
  if cs.isEmpty then .error "cannot parse integer from empty string"
  else
    let ds := if cs.headD ' ' = '+' then cs.tail else cs
    if ds.isEmpty then .error "invalid digit found in string"
    else if ds.all (fun c => c.isDigit) then
      let v := ds.foldl (fun acc c => acc * 10 + (c.toNat - 48)) 0
      if v < 2 ^ 64 then .ok v else .error "number too large to fit in target type"
    else .error "invalid digit found in string"

/-- Embeds the parsing pass of `validate_permutation`: `collect` over
`Result` stops at the first failing token. -/
def parseTokens : List String → Except PermError (List Nat)
  | [] => .ok []
  | s :: rest =>
    match parseU64 s with
    | .error e => .error (.parseFailure s e)
    | .ok v =>
      match parseTokens rest with
      | .error e => .error e
      | .ok vs => .ok (v :: vs)

/-- Normalization to 0-based indexing used by `validate_permutation`:
`x as usize` when a zero occurs in the sequence, `x as usize - 1` otherwise
(`Nat` subtraction truncates exactly like the claim under scrutiny requires
never to happen on the live path). -/
def normalizeIdx (contains_zero : Bool) (x : Nat) : Nat :=
  if contains_zero then x else x - 1

/-- Embeds the `try_fold` of `validate_permutation` (lines 24-44): `acc` is
the occurrence-count vector, errors abort at the first offending element. -/
def checkFold (contains_zero : Bool) : List Nat → List Nat → Except PermError (List Nat)
  | acc, [] => .ok acc
  | acc, x :: rest =>
    let index := normalizeIdx contains_zero x
    if acc.length ≤ index then .error (.outOfRange x acc.length)
    else if 0 < acc.getD index 0 then .error (.duplicateValue x)
    else checkFold contains_zero (acc.set index (acc.getD index 0 + 1)) rest

/-- Embeds `validate_permutation` of `src/permutation.rs` (lines 12-50),
returning the normalized sequence. -/
def validate_permutation (tokens : List String) : Except PermError (List Nat) := do
  let permutation ← parseTokens tokens
  let contains_zero := permutation.contains 0
  let occurrence_count ←
    checkFold contains_zero (List.replicate permutation.length 0) permutation
  if occurrence_count.all (fun c => 1 ≤ c) then
    .ok (permutation.map (normalizeIdx contains_zero))
  else .error .assertionFailure

/-- Embeds `build_permutation` of `src/permutation.rs` (lines 3-8). -/
def build_permutation (tokens : List String) : Except PermError Circuit :=
  (validate_permutation tokens).map (fun vs =>
    from_unnamed_outputs (vs.map (fun x => .Variable ("i" ++ Nat.repr x))))

/-- Embeds `interleave_permutation` of `src/combinations.rs` (lines 25-28). -/
def interleave_permutation (items repetitions : Nat) : List Nat :=
  (List.range items).flatMap
    (fun index => (List.range repetitions).map (fun repetition => index + repetition * items))

/-- Name allocator of `src/concatenator.rs` (lines 158-186): a set of used
names plus one retry counter per stem. -/
structure NameAllocator where
  used_names : List String
  counters : List (String × Nat)
deriving DecidableEq, Inhabited

/-- Association-list lookup modelling `HashMap` lookup (the most recent
insertion for a key wins). -/
def alookup {α β : Type} [DecidableEq α] : List (α × β) → α → Option β
  | [], _ => none
  | (k, v) :: rest, key => if key = k then some v else alookup rest key

/-- Stem derivation of `allocate_name`: strip any trailing ASCII digits and
underscores (`trim_end_matches`). -/
def trimStem (s : String) : String :=
  s.dropRightWhile (fun c => c.isDigit || c == '_')

/-- Candidate name tried by the retry loop of `allocate_name`. -/
def candName (hint : String) (c : Nat) : String :=
  hint ++ "_" ++ Nat.repr c

/-- Retry loop of `allocate_name`: try `hint_c, hint_(c+1), …` until a name
not in `used` is found, and return it with the counter value to store.  The
Rust loop is unbounded; `used.length + 1` units of fuel provably suffice
(see `findFree_not_mem`), so the zero-fuel fallback is unreachable when the
function is called by `allocate_name`. -/
def findFree (used : List String) (hint : String) : Nat → Nat → String × Nat
  | c, 0 => (candName hint c, c + 1)
  | c, fuel + 1 =>
    let name := candName hint c
    if name ∈ used then findFree used hint (c + 1) fuel else (name, c + 1)

/-- Embeds `NameAllocator::allocate_name` (lines 172-185). -/
def allocate_name (a : NameAllocator) (name_hint : String) : String × NameAllocator :=
  if name_hint ∈ a.used_names then
    let stem := trimStem name_hint
    let counter := (alookup a.counters stem).getD 1
    let (name, counter') := findFree a.used_names name_hint counter (a.used_names.length + 1)
    (name, ⟨name :: a.used_names, (stem, counter') :: a.counters⟩)
  else
    (name_hint, ⟨name_hint :: a.used_names, a.counters⟩)

/-- Sequence of names returned by successive `allocate_name` calls. -/
def allocRun (a : NameAllocator) : List String → List String × NameAllocator
  | [] => ([], a)
  | hint :: rest =>
    let (name, a1) := allocate_name a hint
    let (names, a2) := allocRun a1 rest
    (name :: names, a2)

/-- Panics of the concatenator: `missingSub` models the indexing panic in
`Concatenator::sub` (a gate absent from `gate_substitutions`), and
`missingInput` the indexing panic in `map_input` (a variable absent from
`input_index_by_name`). -/
inductive CPanic where
  | missingSub
  | missingInput
deriving DecidableEq

/-- Mutable state of `Concatenator` (`src/concatenator.rs` lines 5-17),
minus the immutable circuit list, which is passed separately. -/
structure CState where
  input_name_substitutions : List ((Nat × String) × Gate)
  gate_substitutions : List ((Nat × Gate) × Gate)
  input_name_allocator : NameAllocator
  output_name_allocator : NameAllocator
  new_input_name_sequence : List String
deriving DecidableEq

/-- Lookup in the gate-substitution cache; keys are pairs of circuit index
and gate identity (structural identity, thanks to interning). -/
def lookupGate (s : CState) (ci : Nat) (g : Gate) : Option Gate :=
  alookup s.gate_substitutions (ci, g)

/-- Record a gate substitution. -/
def insertGate (s : CState) (ci : Nat) (g sub : Gate) : CState :=
  { s with gate_substitutions := ((ci, g), sub) :: s.gate_substitutions }

/-- Lookup in the input-name substitution cache. -/
def lookupInput (s : CState) (ci : Nat) (name : String) : Option Gate :=
  alookup s.input_name_substitutions (ci, name)

/-- Record an input-name substitution. -/
def insertInput (s : CState) (ci : Nat) (name : String) (sub : Gate) : CState :=
  { s with input_name_substitutions := ((ci, name), sub) :: s.input_name_substitutions }

/-- Embeds `Concatenator::map_input` (lines 120-147) at circuit index `ci`,
parameterized by the `map_gate` of index `ci - 1` (only consulted when
`ci ≠ 0`). -/
def map_inputWith (prevGate : Gate → CState → Except CPanic (Gate × CState))
    (cs : List Circuit) (ci : Nat) (name : String) (s : CState) :
    Except CPanic (Gate × CState) :=
  match lookupInput s ci name with
  | some g => .ok (g, s)
  | none =>
    if ci = 0 then
      .ok (Gate.Variable name, insertInput s ci name (Gate.Variable name))
    else
      match lastIdxOf (cs.getD ci default).inputs name with
      | none => .error .missingInput
      | some input_index =>
        match (cs.getD (ci - 1) default).outputs.get? input_index with
        | some output =>
          match prevGate output.1 s with
          | .error e => .error e
          | .ok (substitution, s1) => .ok (substitution, insertInput s1 ci name substitution)
        | none =>
          match allocate_name s.input_name_allocator name with
          | (new_input_name, alloc) =>
            .ok (Gate.Variable new_input_name,
              insertInput
                { s with
                  input_name_allocator := alloc
                  new_input_name_sequence := s.new_input_name_sequence ++ [new_input_name] }
                ci name (Gate.Variable new_input_name))

/-- Substitution computed for one node of the post-order traversal in
`Concatenator::map_gate` (lines 95-108): operands are looked up in the cache
exactly as `Concatenator::sub` does, and a missing operand is the `sub`
panic. -/
def computeSubWith (prevGate : Gate → CState → Except CPanic (Gate × CState))
    (cs : List Circuit) (ci : Nat) (g : Gate) (s : CState) :
    Except CPanic (Gate × CState) :=
  match g with
  | .Variable name => map_inputWith prevGate cs ci name s
  | .Constant b => .ok (.Constant b, s)
  | .Negation inner =>
    match lookupGate s ci inner with
    | some sub => .ok (.Negation sub, s)
    | none => .error .missingSub
  | .Conjunction l r =>
    match lookupGate s ci l, lookupGate s ci r with
    | some sl, some sr => .ok (.Conjunction sl sr, s)
    | _, _ => .error .missingSub
  | .Disjunction l r =>
    match lookupGate s ci l, lookupGate s ci r with
    | some sl, some sr => .ok (.Disjunction sl sr, s)
    | _, _ => .error .missingSub
  | .Xor l r =>
    match lookupGate s ci l, lookupGate s ci r with
    | some sl, some sr => .ok (.Xor sl sr, s)
    | _, _ => .error .missingSub

/-- The `for g in gate.post_visit_iter()` loop body of `map_gate`: skip
nodes already in the cache, otherwise compute and record a substitution. -/
def processListWith (prevGate : Gate → CState → Except CPanic (Gate × CState))
    (cs : List Circuit) (ci : Nat) : List Gate → CState → Except CPanic CState
  | [], s => .ok s
  | g :: rest, s =>
    if (lookupGate s ci g).isSome then processListWith prevGate cs ci rest s
    else
      match computeSubWith prevGate cs ci g s with
      | .error e => .error e
      | .ok (substitution, s1) =>
        processListWith prevGate cs ci rest (insertGate s1 ci g substitution)

/-- Embeds `Concatenator::map_gate` (lines 87-113): process the dependency
DAG in post order, then read the substitution for the gate itself through
`sub`. -/
def map_gateWith (prevGate : Gate → CState → Except CPanic (Gate × CState))
    (cs : List Circuit) (ci : Nat) (g : Gate) (s : CState) :
    Except CPanic (Gate × CState) :=
  match processListWith prevGate cs ci (postVisit g) s with
  | .error e => .error e
  | .ok s1 =>
    match lookupGate s1 ci g with
    | some sub => .ok (sub, s1)
    | none => .error .missingSub

/-- `map_gate` at every circuit index: the index recursion of the Rust code
(`map_input` at index `ci` calls `map_gate` at index `ci - 1`) becomes plain
`Nat` recursion.  The previous-level function passed at index 0 is never
consulted, since `map_input` guards on `circuit_index == 0`. -/
def mapGateAt (cs : List Circuit) : Nat → Gate → CState → Except CPanic (Gate × CState)
  | 0 => map_gateWith (fun _ _ => .error .missingInput) cs 0
  | ci + 1 => map_gateWith (mapGateAt cs ci) cs (ci + 1)

/-- Embeds `Concatenator::allocate_new_output_name` (lines 149-155). -/
def allocate_new_output_name (s : CState) (name_hint : String) : String × CState :=
  if name_hint.isEmpty then ("", s)
  else
    let (name, alloc) := allocate_name s.output_name_allocator name_hint
    (name, { s with output_name_allocator := alloc })

/-- The overhang enumeration of `Concatenator::run` (lines 55-72): walk the
circuits from last to first, skipping for circuit `i` as many leading outputs
as the next circuit has (distinct) input names. -/
def overhangOutputs (cs : List Circuit) : List (Nat × Gate × String) :=
  cs.enum.reverse.flatMap (fun p =>
    let next_inputs := match cs.get? (p.1 + 1) with
      | some c => c.inputs.eraseDups.length
      | none => 0
    (p.2.outputs.drop next_inputs).map (fun q => (p.1, q.1, q.2)))

/-- The rewriting loop of `Concatenator::run` (lines 73-80): allocate a
collision-free output name, then rewrite the output gate. -/
def runOutputs (cs : List Circuit) :
    List (Nat × Gate × String) → CState → Except CPanic (List (Gate × String) × CState)
  | [], s => .ok ([], s)
  | (ci, g, name) :: rest, s =>
    match allocate_new_output_name s name with
    | (name', s1) =>
      match mapGateAt cs ci g s1 with
      | .error e => .error e
      | .ok (g', s2) =>
        match runOutputs cs rest s2 with
        | .error e => .error e
        | .ok (outs, s3) => .ok ((g', name') :: outs, s3)

/-- Initial concatenator state built by `Concatenator::new` (lines 20-52):
the input-name allocator is seeded with the first circuit's input names, and
those names form the initial new-input sequence. -/
def initState (cs : List Circuit) : CState :=
  let first_inputs := (cs.headD default).inputs
  { input_name_substitutions := []
    gate_substitutions := []
    input_name_allocator := ⟨first_inputs, []⟩
    output_name_allocator := ⟨[], []⟩
    new_input_name_sequence := first_inputs }

/-- Modelled from the spec: the public wrapper `concatenate` in
`src/combinations.rs` (line 30) is truncated in the sources right after
collecting the circuit list.  Per the spec (§4.4, §7), an empty list is a
degenerate success producing the empty circuit, and otherwise the
`Concatenator` runs and the result is the circuit with the rewritten outputs
and the new input-name sequence. -/
def concatenate (cs : List Circuit) : Except CPanic Circuit :=
  match cs with
  | [] => .ok ⟨[], []⟩
  | _ =>
    match runOutputs cs (overhangOutputs cs) (initState cs) with
    | .error e => .error e
    | .ok (outs, s) => .ok ⟨s.new_input_name_sequence, outs⟩

deriving instance DecidableEq for Except

theorem foldl_max_le_acc (l : List Nat) (a : Nat) : a ≤ l.foldl max a := by
  induction l generalizing a with
  | nil => simp
  | cons x xs ih => exact le_trans (le_max_left a x) (ih (max a x))

theorem le_foldl_max (l : List Nat) (a : Nat) : ∀ x ∈ l, x ≤ l.foldl max a := by
  induction l generalizing a with
  | nil => simp
  | cons y ys ih =>
    intro x hx
    rcases List.mem_cons.mp hx with h | h
    · subst h
      exact le_trans (le_max_right a x) (foldl_max_le_acc ys (max a x))
    · exact ih (max a y) x h

theorem foldl_max_zero_iff (l : List Nat) : l.foldl max 0 = 0 ↔ ∀ x ∈ l, x = 0 := by
  constructor
  · intro h x hx
    have := le_foldl_max l 0 x hx
    omega
  · intro h
    induction l with
    | nil => rfl
    | cons y ys ih =>
      have hy : y = 0 := h y (List.mem_cons_self y ys)
      simp only [List.foldl_cons, hy]
      exact ih (fun x hx => h x (List.mem_cons_of_mem y hx))

theorem validate_inputs_ok_pow (t : List Nat) (k : Nat) (hk : t.length = 2 ^ k) :
    validate_inputs t =
      .ok (k, if t.foldl max 0 = 0 then 0 else Nat.log2 (t.foldl max 0) + 1) := by
  have hpos : 0 < t.length := by
    rw [hk]; exact Nat.pos_pow_of_pos k (by omega)
  have hne : t.isEmpty = false := by
    rw [List.isEmpty_eq_false_iff_exists_mem]
    rcases t with _ | ⟨x, xs⟩
    · simp at hpos
    · exact ⟨x, List.mem_cons_self x xs⟩
  have hlog : Nat.log2 t.length = k := by rw [hk, Nat.log2_two_pow]
  unfold validate_inputs
  rw [hne]
  simp only [Bool.false_eq_true, if_false, hlog, Nat.one_shiftLeft]
  rw [if_neg (by omega)]
  by_cases hmax : t.foldl max 0 = 0
  · rw [if_pos hmax, if_pos hmax]
  · rw [if_neg hmax, if_neg hmax]
    have hle : 2 ^ Nat.log2 (t.foldl max 0) ≤ t.foldl max 0 := Nat.log2_self_le hmax
    rw [if_neg (by omega)]

theorem validate_inputs_0423 : validate_inputs [0, 4, 2, 3] = .ok (2, 3) := by
  have h := validate_inputs_ok_pow [0, 4, 2, 3] 2 (by norm_num)
  have hm : [0, 4, 2, 3].foldl max 0 = 4 := by decide
  rw [hm] at h
  have h4 : Nat.log2 4 = 2 := by
    rw [show (4 : Nat) = 2 ^ 2 by norm_num, Nat.log2_two_pow]
  rw [if_neg (by omega), h4] at h
  exact h

/-- C6: `validate_inputs` behaviour: an empty table yields `(0, 0)`; a
nonempty table whose length is not a power of two yields the
not-power-of-two error; a table of length `2^k` yields `input_bits = k`
(which is `floor (log2 L)`) and `output_bits` zero when every entry is zero
and otherwise the smallest `b` with `2^b > max(table)`; and
`[0, 4, 2, 3]` yields `(2, 3)`. -/
theorem C6_validate_inputs_spec (t : List Nat) :
    (t = [] → validate_inputs t = .ok (0, 0)) ∧
    (t ≠ [] → (¬ ∃ k, t.length = 2 ^ k) →
      validate_inputs t = .error (.notPowerOfTwo t.length)) ∧
    (∀ k, t.length = 2 ^ k →
      validate_inputs t =
        .ok (k, if t.foldl max 0 = 0 then 0 else Nat.log2 (t.foldl max 0) + 1) ∧
      k = Nat.log2 t.length ∧
      (t.foldl max 0 = 0 ↔ ∀ x ∈ t, x = 0) ∧
      (t.foldl max 0 ≠ 0 →
        ∀ b, t.foldl max 0 < 2 ^ b ↔ Nat.log2 (t.foldl max 0) + 1 ≤ b)) ∧
    validate_inputs [0, 4, 2, 3] = .ok (2, 3) := by
  refine ⟨?_, ?_, ?_, validate_inputs_0423⟩
  · intro h; subst h; rfl
  · intro hne hnp
    have hE : t.isEmpty = false := by
      cases t with
      | nil => exact absurd rfl hne
      | cons x xs => rfl
    have hne2 : 2 ^ Nat.log2 t.length ≠ t.length := by
      intro h; exact hnp ⟨Nat.log2 t.length, h.symm⟩
    unfold validate_inputs
    rw [hE]
    simp only [Bool.false_eq_true, if_false, Nat.one_shiftLeft]
    rw [if_pos hne2]
  · intro k hk
    refine ⟨validate_inputs_ok_pow t k hk, ?_, foldl_max_zero_iff t, ?_⟩
    · rw [hk, Nat.log2_two_pow]
    · intro hmax b
      rw [← Nat.log2_lt hmax]
      omega

/-- Witness for C6 at concrete inputs: table `[1, 1, 1]` fails with the
not-power-of-two error and `[0, 1, 2, 3]` yields two input and two output
bits. -/
theorem C6_validate_inputs_spec_witness :
    validate_inputs [1, 1, 1] = .error (.notPowerOfTwo 3) ∧
    validate_inputs [0, 1, 2, 3] = .ok (2, 2) := by
  constructor
  · have h := (C6_validate_inputs_spec [1, 1, 1]).2.1 (by simp) ?_
    · simpa using h
    · rintro ⟨k, hk⟩
      simp only [List.length_cons, List.length_nil] at hk
      rcases k with _ | _ | k
      · simp at hk
      · simp at hk
      · have : 4 ≤ 2 ^ (k + 2) := by
          calc 4 = 2 ^ 2 := by norm_num
          _ ≤ 2 ^ (k + 2) := Nat.pow_le_pow_right (by omega) (by omega)
        omega
  · have h := ((C6_validate_inputs_spec [0, 1, 2, 3]).2.2.1 2 (by norm_num)).1
    have hm : [0, 1, 2, 3].foldl max 0 = 3 := by decide
    rw [hm] at h
    have h3 : Nat.log2 3 = 1 := by simp [Nat.log2]
    rw [if_neg (by omega), h3] at h
    exact h

theorem range_flatMap_length (f : Nat → Nat → Nat) (m k : Nat) :
    ((List.range m).flatMap (fun v => (List.range k).map (f v))).length = m * k := by
  induction m with
  | zero => simp
  | succ n ih =>
    rw [List.range_succ, List.flatMap_append]
    simp only [List.length_append, ih, List.flatMap_cons, List.flatMap_nil,
      List.append_nil, List.length_map, List.length_range]
    ring

theorem range_flatMap_getD (f : Nat → Nat → Nat) (m k : Nat) :
    ∀ v c, v < m → c < k →
      ((List.range m).flatMap (fun v => (List.range k).map (f v))).getD (v * k + c) 0
        = f v c := by
  induction m with
  | zero => intro v c hv _; omega
  | succ n ih =>
    intro v c hv hc
    rw [List.range_succ, List.flatMap_append]
    simp only [List.flatMap_cons, List.flatMap_nil, List.append_nil]
    rcases Nat.lt_or_ge v n with h | h
    · rw [List.getD_append _ _ _ _ (by
        rw [range_flatMap_length]
        calc v * k + c < v * k + k := by omega
        _ = (v + 1) * k := by ring
        _ ≤ n * k := Nat.mul_le_mul_right k (by omega))]
      exact ih v c h hc
    · have hv' : v = n := by omega
      subst hv'
      rw [List.getD_append_right _ _ _ _ (by rw [range_flatMap_length]; omega)]
      rw [range_flatMap_length]
      have hc' : v * k + c - v * k = c := by omega
      rw [hc', List.getD_eq_getElem _ _ (by simpa using hc), List.getElem_map,
        List.getElem_range]

/-- C8: the interleave permutation has length `items * repetitions`, its
element at position `v * repetitions + c` is `c * items + v` for `v < items`
and `c < repetitions`, and the two concrete examples from the spec hold. -/
theorem C8_interleave_spec (items repetitions : Nat) :
    (interleave_permutation items repetitions).length = items * repetitions ∧
    (∀ v c, v < items → c < repetitions →
      (interleave_permutation items repetitions).getD (v * repetitions + c) 0
        = c * items + v) ∧
    interleave_permutation 3 2 = [0, 3, 1, 4, 2, 5] ∧
    interleave_permutation 2 4 = [0, 2, 4, 6, 1, 3, 5, 7] := by
  refine ⟨range_flatMap_length _ items repetitions, ?_, by decide, by decide⟩
  intro v c hv hc
  have h := range_flatMap_getD (fun index repetition => index + repetition * items)
    items repetitions v c hv hc
  exact h.trans (by ring)

/-- Witness for C8: at `items = 3`, `repetitions = 2`, position
`1 * 2 + 1 = 3` holds value `1 * 3 + 1 = 4`. -/
theorem C8_interleave_spec_witness :
    (interleave_permutation 3 2).getD 3 0 = 4 :=
  (C8_interleave_spec 3 2).2.1 1 1 (by decide) (by decide)

theorem getD_range_map {α : Type} (f : Nat → α) (n i : Nat) (d : α) (h : i < n) :
    ((List.range n).map f).getD i d = f i := by
  rw [List.getD_eq_getElem _ _ (by simpa using h), List.getElem_map, List.getElem_range]

theorem and_shift_ne_zero (x b : Nat) : (x &&& 1 <<< b ≠ 0) ↔ x.testBit b = true := by
  rw [Nat.one_shiftLeft, Nat.and_two_pow]
  cases h : x.testBit b <;> simp [h]

theorem evalGate_foldl_conj (a : String → Bool) (gs : List Gate) (acc : Gate) :
    evalGate a (gs.foldl .Conjunction acc) = (evalGate a acc && gs.all (evalGate a)) := by
  induction gs generalizing acc with
  | nil => simp
  | cons g gs ih =>
    simp only [List.foldl_cons, ih, List.all_cons]
    show ((evalGate a acc && evalGate a g) && gs.all (evalGate a))
        = (evalGate a acc && (evalGate a g && gs.all (evalGate a)))
    rw [Bool.and_assoc]

theorem evalGate_foldl_disj (a : String → Bool) (gs : List Gate) (acc : Gate) :
    evalGate a (gs.foldl .Disjunction acc) = (evalGate a acc || gs.any (evalGate a)) := by
  induction gs generalizing acc with
  | nil => simp
  | cons g gs ih =>
    simp only [List.foldl_cons, ih, List.any_cons]
    show ((evalGate a acc || evalGate a g) || gs.any (evalGate a))
        = (evalGate a acc || (evalGate a g || gs.any (evalGate a)))
    rw [Bool.or_assoc]

theorem evalGate_reduce_conjunction (a : String → Bool) (gs : List Gate) :
    evalGate a (reduce_conjunction gs) = gs.all (evalGate a) := by
  cases gs with
  | nil => rfl
  | cons g rest =>
    simp only [reduce_conjunction, evalGate_foldl_conj, List.all_cons]

theorem evalGate_reduce_disjunction (a : String → Bool) (gs : List Gate) :
    evalGate a (reduce_disjunction gs) = gs.any (evalGate a) := by
  cases gs with
  | nil => rfl
  | cons g rest =>
    simp only [reduce_disjunction, evalGate_foldl_disj, List.any_cons]

theorem testBit_ext_below (ib idx r : Nat) (hidx : idx < 2 ^ ib) (hr : r < 2 ^ ib) :
    (∀ b, b < ib → idx.testBit b = r.testBit b) ↔ idx = r := by
  constructor
  · intro h
    apply Nat.eq_of_testBit_eq
    intro i
    rcases Nat.lt_or_ge i ib with hi | hi
    · exact h i hi
    · rw [Nat.testBit_lt_two_pow (lt_of_lt_of_le hidx (Nat.pow_le_pow_right (by omega) hi)),
        Nat.testBit_lt_two_pow (lt_of_lt_of_le hr (Nat.pow_le_pow_right (by omega) hi))]
  · intro h
    subst h
    intro _ _
    rfl

theorem validate_inputs_ok_len (t : List Nat) (ib ob : Nat)
    (h : validate_inputs t = .ok (ib, ob)) (hne : t ≠ []) : t.length = 2 ^ ib := by
  have hE : t.isEmpty = false := by
    cases t with
    | nil => exact absurd rfl hne
    | cons x xs => rfl
  unfold validate_inputs at h
  rw [hE] at h
  simp only [Bool.false_eq_true, if_false, Nat.one_shiftLeft] at h
  by_cases hp : 2 ^ Nat.log2 t.length ≠ t.length
  · rw [if_pos hp] at h
    cases h
  · push_neg at hp
    rw [if_neg (by omega)] at h
    split at h
    · cases h
      omega
    · split at h <;> (cases h; omega)

/-- Conjunction gate built by `build_bitmap` for one table row, as it occurs
in the source. -/
def rowConj (ib idx : Nat) : Gate :=
  reduce_conjunction ((List.range ib).map (fun input_bit =>
    let input_gate :=
      ((List.range ib).map (fun i => Gate.Variable ("i" ++ Nat.repr i))).getD input_bit
        (.Constant false)
    if idx &&& (1 <<< input_bit) ≠ 0 then input_gate else .Negation input_gate))

theorem build_bitmap_ok (table : List Nat) (ib ob : Nat)
    (hv : validate_inputs table = .ok (ib, ob)) :
    build_bitmap table = .ok (from_unnamed_outputs ((List.range ob).map (fun bit =>
      reduce_disjunction
        ((table.enum.filter (fun p => p.2 &&& (1 <<< bit) ≠ 0)).map
          (fun p => rowConj ib p.1))))) := by
  unfold build_bitmap rowConj
  rw [hv]
  rfl

theorem evalOutputs_from_unnamed (gs : List Gate) (a : String → Bool) :
    evalOutputs (from_unnamed_outputs gs) a = gs.map (evalGate a) := by
  simp [evalOutputs, from_unnamed_outputs, List.map_map]

theorem eval_rowConj_iff (a : String → Bool) (ib r idx : Nat)
    (ha : ∀ b, b < ib → a ("i" ++ Nat.repr b) = r.testBit b)
    (hidx : idx < 2 ^ ib) (hr : r < 2 ^ ib) :
    (evalGate a (rowConj ib idx) = true) ↔ idx = r := by
  rw [← testBit_ext_below ib idx r hidx hr]
  unfold rowConj
  rw [evalGate_reduce_conjunction, List.all_eq_true]
  constructor
  · intro h b hb
    have := h _ (List.mem_map_of_mem _ (List.mem_range.mpr hb))
    rw [getD_range_map _ _ _ _ hb] at this
    by_cases hbit : idx &&& 1 <<< b ≠ 0
    · rw [if_pos hbit] at this
      simp only [evalGate] at this
      rw [ha b hb] at this
      rw [(and_shift_ne_zero idx b).mp hbit, this]
    · rw [if_neg hbit] at this
      simp only [evalGate] at this
      rw [ha b hb] at this
      have hfalse : idx.testBit b = false := by
        rcases hx : idx.testBit b with _ | _
        · rfl
        · exact absurd ((and_shift_ne_zero idx b).mpr hx) hbit
      rw [hfalse]
      cases hrb : r.testBit b
      · rfl
      · rw [hrb] at this
        cases this
  · intro h g hg
    rcases List.mem_map.mp hg with ⟨b, hbmem, rfl⟩
    have hb := List.mem_range.mp hbmem
    rw [getD_range_map _ _ _ _ hb]
    by_cases hbit : idx &&& 1 <<< b ≠ 0
    · rw [if_pos hbit]
      simp only [evalGate]
      rw [ha b hb, ← h b hb]
      exact (and_shift_ne_zero idx b).mp hbit
    · rw [if_neg hbit]
      simp only [evalGate]
      rw [ha b hb, ← h b hb]
      have hfalse : idx.testBit b = false := by
        rcases hx : idx.testBit b with _ | _
        · rfl
        · exact absurd ((and_shift_ne_zero idx b).mpr hx) hbit
      rw [hfalse]
      rfl

/-- C3: for a validated table, evaluating the synthesized circuit with the
inputs set to the binary expansion of a row index `r` yields the binary
expansion of `table[r]`, one output per output bit. -/
theorem C3_bitmap_eval (table : List Nat) (ib ob : Nat)
    (hv : validate_inputs table = .ok (ib, ob)) (r : Nat) (hr : r < table.length)
    (a : String → Bool) (ha : ∀ b, b < ib → a ("i" ++ Nat.repr b) = r.testBit b) :
    ∃ c, build_bitmap table = .ok c ∧
      evalOutputs c a = (List.range ob).map (fun k => (table.getD r 0).testBit k) := by
  have hne : table ≠ [] := by
    intro h
    subst h
    simp at hr
  have hlen : table.length = 2 ^ ib := validate_inputs_ok_len table ib ob hv hne
  have hr2 : r < 2 ^ ib := hlen ▸ hr
  refine ⟨_, build_bitmap_ok table ib ob hv, ?_⟩
  rw [evalOutputs_from_unnamed, List.map_map]
  apply List.map_congr_left
  intro k _
  simp only [Function.comp]
  rw [evalGate_reduce_disjunction, Bool.eq_iff_iff, List.any_eq_true]
  constructor
  · rintro ⟨g, hg, heval⟩
    rcases List.mem_map.mp hg with ⟨p, hpmem, rfl⟩
    rcases List.mem_filter.mp hpmem with ⟨hpenum, hpbit⟩
    have hget := List.mem_enum_iff_getElem?.mp hpenum
    have hplen : p.1 < table.length := by
      rcases List.getElem?_eq_some.mp hget with ⟨h, _⟩
      exact h
    have hpidx : p.1 = r :=
      (eval_rowConj_iff a ib r p.1 ha (hlen ▸ hplen) hr2).mp heval
    have hget2 : table[r]? = some p.2 := by rw [← hpidx]; exact hget
    have hval : p.2 = table.getD r 0 := by
      rw [List.getD_eq_getElem?_getD, hget2]
      rfl
    rw [← hval]
    have := of_decide_eq_true hpbit
    exact (and_shift_ne_zero p.2 k).mp this
  · intro hbit
    refine ⟨rowConj ib r, List.mem_map.mpr ⟨(r, table.getD r 0), ?_, rfl⟩, ?_⟩
    · apply List.mem_filter.mpr
      constructor
      · apply List.mem_enum_iff_getElem?.mpr
        show table[r]? = some (table.getD r 0)
        rw [List.getD_eq_getElem _ _ hr]
        exact List.getElem?_eq_getElem hr
      · exact decide_eq_true ((and_shift_ne_zero _ k).mpr hbit)
    · exact (eval_rowConj_iff a ib r r ha hr2 hr2).mpr rfl

/-- Witness for C3: the table `[1, 2]` at row 1 with input `i0` set to
`true` evaluates to the bits of `2`. -/
theorem C3_bitmap_eval_witness :
    ∃ c, build_bitmap [1, 2] = .ok c ∧
      evalOutputs c (fun s => s == "i0") = [false, true] := by
  have hv : validate_inputs [1, 2] = .ok (1, 2) := by
    have h := validate_inputs_ok_pow [1, 2] 1 (by norm_num)
    have hm : [1, 2].foldl max 0 = 2 := by decide
    rw [hm] at h
    have h2 : Nat.log2 2 = 1 := by simp [Nat.log2]
    rw [if_neg (by omega), h2] at h
    exact h
  have h := C3_bitmap_eval [1, 2] 1 2 hv 1 (by norm_num) (fun s => s == "i0") ?_
  · rcases h with ⟨c, hc, heval⟩
    refine ⟨c, hc, ?_⟩
    rw [heval]
    decide
  · intro b hb
    interval_cases b
    decide

def decValFrom (l : List Char) (a : Nat) : Nat :=
  l.foldl (fun acc c => acc * 10 + (c.toNat - 48)) a

theorem digitChar_val : ∀ m, m < 10 → (Nat.digitChar m).toNat - 48 = m := by decide

theorem toDigitsCore_decVal :
    ∀ (fuel n : Nat) (ds : List Char) (a : Nat), n < 10 ^ fuel → 0 < fuel →
      ∃ k, 0 < k ∧ k ≤ fuel ∧
        decValFrom (Nat.toDigitsCore 10 fuel n ds) a = decValFrom ds (a * 10 ^ k + n) := by
  intro fuel
  induction fuel with
  | zero => intro n ds a _ h; omega
  | succ f ih =>
    intro n ds a hn _
    simp only [Nat.toDigitsCore]
    by_cases hdiv : n / 10 = 0
    · rw [if_pos hdiv]
      have hlt : n < 10 := (Nat.div_eq_zero_iff (by omega)).mp hdiv
      refine ⟨1, by omega, by omega, ?_⟩
      show decValFrom ds (a * 10 + ((Nat.digitChar (n % 10)).toNat - 48)) = _
      rw [digitChar_val (n % 10) (Nat.mod_lt n (by omega)), Nat.mod_eq_of_lt hlt]
      ring_nf
    · rw [if_neg hdiv]
      have hf : 0 < f := by
        rcases Nat.eq_zero_or_pos f with h0 | h
        · subst h0
          have : n < 10 := by simpa using hn
          exact absurd ((Nat.div_eq_zero_iff (by omega)).mpr this) hdiv
        · exact h
      have hn' : n / 10 < 10 ^ f := by
        rw [Nat.div_lt_iff_lt_mul (by omega)]
        calc n < 10 ^ (f + 1) := hn
        _ = 10 ^ f * 10 := by ring
      rcases ih (n / 10) (Nat.digitChar (n % 10) :: ds) a hn' hf with ⟨k, hk0, hkle, hval⟩
      refine ⟨k + 1, by omega, by omega, ?_⟩
      rw [hval]
      show decValFrom ds ((a * 10 ^ k + n / 10) * 10 + ((Nat.digitChar (n % 10)).toNat - 48)) = _
      rw [digitChar_val (n % 10) (Nat.mod_lt n (by omega))]
      have : (a * 10 ^ k + n / 10) * 10 + n % 10 = a * 10 ^ (k + 1) + (10 * (n / 10) + n % 10) := by
        ring
      rw [this, Nat.div_add_mod]

theorem decVal_toDigits (n : Nat) : decValFrom (Nat.toDigits 10 n) 0 = n := by
  unfold Nat.toDigits
  have hlt : n < 10 ^ (n + 1) :=
    lt_of_lt_of_le (Nat.lt_pow_self (by omega) n) (Nat.pow_le_pow_right (by omega) (by omega))
  rcases toDigitsCore_decVal (n + 1) n [] 0 hlt (by omega) with ⟨k, _, _, h⟩
  rw [h]
  simp [decValFrom]

theorem natRepr_injective : Function.Injective Nat.repr := by
  intro m n h
  have hd : Nat.toDigits 10 m = Nat.toDigits 10 n := by
    have h2 := congrArg String.data h
    simpa [Nat.repr, List.asString] using h2
  rw [← decVal_toDigits m, ← decVal_toDigits n, hd]

theorem candName_data (hint : String) (c : Nat) :
    (candName hint c).data = hint.data ++ '_' :: (Nat.repr c).data := by
  simp [candName, String.data_append]

theorem candName_ne_hint (hint : String) (c : Nat) : candName hint c ≠ hint := by
  intro h
  have h2 := congrArg (fun s => s.data.length) h
  simp [candName_data] at h2

theorem candName_inj (hint : String) : Function.Injective (candName hint) := by
  intro i j h
  apply natRepr_injective
  apply String.ext
  have h2 := congrArg String.data h
  rw [candName_data, candName_data] at h2
  have h3 := List.append_cancel_left h2
  exact List.tail_eq_of_cons_eq h3

theorem exists_fresh_cand (used : List String) (hint : String) (c : Nat) :
    ∃ k, k < used.length + 1 ∧ candName hint (c + k) ∉ used := by
  by_contra hcon
  push_neg at hcon
  set L := (List.range (used.length + 1)).map (fun k => candName hint (c + k)) with hL
  have hinj : Function.Injective (fun k => candName hint (c + k)) := by
    intro i j h
    have := candName_inj hint h
    omega
  have hnodup : L.Nodup := List.Nodup.map hinj (List.nodup_range _)
  have hsub : L.toFinset ⊆ used.toFinset := by
    intro x hx
    rcases List.mem_map.mp (List.mem_toFinset.mp hx) with ⟨k, hk, rfl⟩
    exact List.mem_toFinset.mpr (hcon k (List.mem_range.mp hk))
  have h1 : L.toFinset.card = L.length := List.toFinset_card_of_nodup hnodup
  have h2 : used.toFinset.card ≤ used.length := List.toFinset_card_le used
  have h3 : L.length = used.length + 1 := by simp [hL]
  have h4 := Finset.card_le_card hsub
  omega

theorem findFree_not_mem (used : List String) (hint : String) :
    ∀ (fuel c : Nat), (∃ k, k < fuel ∧ candName hint (c + k) ∉ used) →
      (findFree used hint c fuel).1 ∉ used := by
  intro fuel
  induction fuel with
  | zero => intro c ⟨k, hk, _⟩; omega
  | succ f ih =>
    intro c hex
    simp only [findFree]
    by_cases hc : candName hint c ∈ used
    · rw [if_pos hc]
      apply ih
      rcases hex with ⟨k, hk, hkm⟩
      rcases Nat.eq_zero_or_pos k with h0 | hpos
      · subst h0
        simp at hkm
        exact absurd hc hkm
      · exact ⟨k - 1, by omega, by
          have : c + 1 + (k - 1) = c + k := by omega
          rw [this]
          exact hkm⟩
    · rw [if_neg hc]
      exact hc

theorem allocate_name_fresh (a : NameAllocator) (hint : String) :
    (allocate_name a hint).1 ∉ a.used_names := by
  unfold allocate_name
  by_cases h : hint ∈ a.used_names
  · rw [if_pos h]
    exact findFree_not_mem a.used_names hint _ _
      (by
        rcases exists_fresh_cand a.used_names hint ((alookup a.counters (trimStem hint)).getD 1)
          with ⟨k, hk, hkm⟩
        exact ⟨k, hk, hkm⟩)
  · rw [if_neg h]
    exact h

theorem allocate_name_used_sub (a : NameAllocator) (hint : String) :
    (allocate_name a hint).2.used_names =
      (allocate_name a hint).1 :: a.used_names := by
  unfold allocate_name
  by_cases h : hint ∈ a.used_names
  · rw [if_pos h]
  · rw [if_neg h]

theorem allocRun_results_fresh (hints : List String) :
    ∀ a : NameAllocator,
      (allocRun a hints).1.Nodup ∧ ∀ x ∈ (allocRun a hints).1, x ∉ a.used_names := by
  induction hints with
  | nil => intro a; exact ⟨List.nodup_nil, by simp [allocRun]⟩
  | cons hint rest ih =>
    intro a
    have hfresh := allocate_name_fresh a hint
    have hused := allocate_name_used_sub a hint
    rcases ih (allocate_name a hint).2 with ⟨hnodup, hnotin⟩
    have hrun : allocRun a (hint :: rest) =
        ((allocate_name a hint).1 :: (allocRun (allocate_name a hint).2 rest).1,
          (allocRun (allocate_name a hint).2 rest).2) := by
      simp only [allocRun]
    rw [hrun]
    constructor
    · apply List.nodup_cons.mpr
      refine ⟨?_, hnodup⟩
      intro hmem
      have := hnotin _ hmem
      rw [hused] at this
      exact this (List.mem_cons_self _ _)
    · intro x hx
      rcases List.mem_cons.mp hx with h | h
      · subst h
        exact hfresh
      · intro hmem
        have := hnotin x h
        rw [hused] at this
        exact this (List.mem_cons_of_mem _ hmem)

theorem allocRun_append (a : NameAllocator) (l1 l2 : List String) :
    allocRun a (l1 ++ l2) =
      ((allocRun a l1).1 ++ (allocRun (allocRun a l1).2 l2).1,
        (allocRun (allocRun a l1).2 l2).2) := by
  induction l1 generalizing a with
  | nil => simp [allocRun]
  | cons h t ih =>
    simp only [List.cons_append, allocRun, ih, List.append_eq]

theorem allocRun_replicate_state (hh : String) (hne : hh ≠ "") :
    ∀ j, 1 ≤ j →
      (allocRun ⟨[], []⟩ (List.replicate j hh)).1 =
        hh :: (List.range (j - 1)).map (fun i => candName hh (i + 1)) ∧
      (∀ x, x ∈ (allocRun ⟨[], []⟩ (List.replicate j hh)).2.used_names ↔
        x = hh ∨ ∃ i, 1 ≤ i ∧ i < j ∧ x = candName hh i) ∧
      alookup (allocRun ⟨[], []⟩ (List.replicate j hh)).2.counters (trimStem hh) =
        (if j = 1 then none else some j) := by
  intro j
  induction j with
  | zero => omega
  | succ n ih =>
    intro _
    rcases Nat.eq_zero_or_pos n with h0 | hn
    · subst h0
      refine ⟨rfl, ?_, rfl⟩
      intro x
      simp only [allocRun, allocate_name, alookup]
      constructor
      · intro hx
        rcases List.mem_cons.mp hx with h | h
        · exact Or.inl h
        · simp at h
      · rintro (rfl | ⟨i, hi1, hi2, _⟩)
        · exact List.mem_cons_self _ _
        · omega
    · rcases ih hn with ⟨hres, hused, hcnt⟩
      have hrepl : List.replicate (n + 1) hh = List.replicate n hh ++ [hh] := by
        rw [← List.replicate_succ' n hh]
      set a1 := (allocRun ⟨[], []⟩ (List.replicate n hh)).2 with ha1
      have hmem : hh ∈ a1.used_names := (hused hh).mpr (Or.inl rfl)
      have hcnt2 : (alookup a1.counters (trimStem hh)).getD 1 = n := by
        rw [hcnt]
        rcases Nat.eq_or_lt_of_le hn with h1 | h1
        · rw [if_pos h1.symm, ← h1]
          rfl
        · rw [if_neg (by omega)]
          rfl
      have hcandfree : candName hh n ∉ a1.used_names := by
        intro hcand
        rcases (hused _).mp hcand with h | ⟨i, hi1, hi2, hieq⟩
        · exact candName_ne_hint hh n h
        · have := candName_inj hh hieq.symm
          omega
      have halloc : allocate_name a1 hh =
          (candName hh n, ⟨candName hh n :: a1.used_names, (trimStem hh, n + 1) :: a1.counters⟩) := by
        have hfind : findFree a1.used_names hh ((alookup a1.counters (trimStem hh)).getD 1)
            (a1.used_names.length + 1) = (candName hh n, n + 1) := by
          rw [hcnt2]
          cases hlen : a1.used_names.length + 1 with
          | zero => omega
          | succ f =>
            simp only [findFree]
            rw [if_neg hcandfree]
        unfold allocate_name
        rw [if_pos hmem]
        simp only [hfind]
      have hstate : allocRun (⟨[], []⟩ : NameAllocator) (List.replicate (n + 1) hh) =
          ((allocRun ⟨[], []⟩ (List.replicate n hh)).1 ++ [candName hh n],
            ⟨candName hh n :: a1.used_names, (trimStem hh, n + 1) :: a1.counters⟩) := by
        rw [hrepl, allocRun_append, ← ha1]
        simp only [allocRun, halloc]
      have hmap : (List.range n).map (fun i => candName hh (i + 1)) =
          (List.range (n - 1)).map (fun i => candName hh (i + 1)) ++ [candName hh n] := by
        conv_lhs => rw [show n = (n - 1) + 1 by omega, List.range_succ]
        rw [List.map_append]
        simp only [List.map_cons, List.map_nil]
        congr 3
        omega
      refine ⟨?_, ?_, ?_⟩
      · rw [hstate, hres]
        simp only [Nat.add_sub_cancel, hmap, List.cons_append]
      · intro x
        rw [hstate]
        simp only [List.mem_cons]
        constructor
        · rintro (rfl | hx)
          · exact Or.inr ⟨n, by omega, by omega, rfl⟩
          · rcases (hused x).mp hx with h | ⟨i, hi1, hi2, hieq⟩
            · exact Or.inl h
            · exact Or.inr ⟨i, hi1, by omega, hieq⟩
        · rintro (rfl | ⟨i, hi1, hi2, rfl⟩)
          · exact Or.inr ((hused _).mpr (Or.inl rfl))
          · rcases Nat.lt_or_ge i n with h | h
            · exact Or.inr ((hused _).mpr (Or.inr ⟨i, hi1, h, rfl⟩))
            · have : i = n := by omega
              subst this
              exact Or.inl rfl
      · rw [hstate]
        simp only [alookup, eq_self_iff_true, if_true]
        rw [if_neg (by omega : ¬(n + 1 = 1))]

/-- C5: within one allocator, no two `allocate_name` calls ever return the
same name (from any starting state), and repeatedly allocating the same
non-empty hint `h` starting from a fresh allocator returns
`h, h_1, h_2, …` in that order. -/
theorem C5_allocate_name_spec :
    (∀ (a : NameAllocator) (hints : List String), (allocRun a hints).1.Nodup) ∧
    (∀ (h : String) (k : Nat), h ≠ "" → 1 ≤ k →
      (allocRun ⟨[], []⟩ (List.replicate k h)).1 =
        h :: (List.range (k - 1)).map (fun i => h ++ "_" ++ Nat.repr (i + 1))) := by
  constructor
  · intro a hints
    exact (allocRun_results_fresh hints a).1
  · intro h k hne hk
    exact (allocRun_replicate_state h hne k hk).1

/-- Witness for C5: three allocations of the hint `o` from a fresh
allocator return `o`, `o_1`, `o_2`. -/
theorem C5_allocate_name_spec_witness :
    (allocRun ⟨[], []⟩ (List.replicate 3 "o")).1 = ["o", "o_1", "o_2"] := by
  rw [C5_allocate_name_spec.2 "o" 3 (by decide) (by decide)]
  decide

/-- Occurrence-count vector of the normalized prefix processed so far: the
`try_fold` accumulator of `validate_permutation`. -/
def countsOf (n : Nat) (pre : List Nat) : List Nat :=
  (List.range n).map (fun i => pre.count i)

/-- Violation at position `j` of a normalized sequence: the value is out of
range, or it repeats an earlier value. -/
def badAt (norm : List Nat) (n j : Nat) : Prop :=
  n ≤ norm.getD j 0 ∨ norm.getD j 0 ∈ norm.take j

instance (norm : List Nat) (n j : Nat) : Decidable (badAt norm n j) := by
  unfold badAt; infer_instance

theorem getD_map_lt (f : Nat → Nat) (l : List Nat) (j : Nat) (h : j < l.length) :
    (l.map f).getD j 0 = f (l.getD j 0) := by
  rw [List.getD_eq_getElem _ _ (by simpa using h), List.getElem_map, List.getD_eq_getElem _ _ h]

theorem countsOf_length (n : Nat) (pre : List Nat) : (countsOf n pre).length = n := by
  simp [countsOf]

theorem countsOf_getD (n : Nat) (pre : List Nat) (i : Nat) (h : i < n) :
    (countsOf n pre).getD i 0 = pre.count i :=
  getD_range_map _ _ _ _ h

theorem countsOf_getElem (n : Nat) (pre : List Nat) (i : Nat)
    (h : i < (countsOf n pre).length) : (countsOf n pre)[i] = pre.count i := by
  simp [countsOf]

theorem countsOf_snoc (n : Nat) (pre : List Nat) (x : Nat) (hx : x < n) :
    (countsOf n pre).set x ((countsOf n pre).getD x 0 + 1) = countsOf n (pre ++ [x]) := by
  apply List.ext_getElem
  · simp [countsOf]
  · intro i h1 h2
    have hi : i < n := by simpa [countsOf] using h2
    have hilen : i < (countsOf n pre).length := by simpa [countsOf] using hi
    rw [List.getElem_set, countsOf_getElem n (pre ++ [x]) i h2]
    by_cases hxi : x = i
    · subst hxi
      rw [if_pos rfl, countsOf_getD n pre x hx, List.count_append]
      simp [List.count_cons]
    · rw [if_neg hxi, countsOf_getElem n pre i hilen, List.count_append]
      simp [List.count_cons, hxi]

theorem getD_append_head (pre : List Nat) (x : Nat) (l : List Nat) :
    (pre ++ x :: l).getD pre.length 0 = x := by
  rw [List.getD_append_right _ _ _ _ (le_refl _)]
  simp

theorem norm_take_prefix (z : Bool) (pre l : List Nat) :
    ((pre ++ l).map (normalizeIdx z)).take pre.length = pre.map (normalizeIdx z) := by
  rw [List.map_append, ← List.length_map pre (normalizeIdx z), List.take_left]

theorem checkFold_ok (z : Bool) (n : Nat) (ps : List Nat) (hn : ps.length = n)
    (hgood : ∀ j, j < n → ¬ badAt (ps.map (normalizeIdx z)) n j) :
    ∀ (l pre : List Nat), ps = pre ++ l →
      checkFold z (countsOf n (pre.map (normalizeIdx z))) l =
        .ok (countsOf n (ps.map (normalizeIdx z))) := by
  intro l
  induction l with
  | nil =>
    intro pre hps
    rw [hps, List.append_nil]
    rfl
  | cons x rest ih =>
    intro pre hps
    have hjn : pre.length < n := by
      rw [← hn, hps]
      simp
    have hnorm_j : (ps.map (normalizeIdx z)).getD pre.length 0 = normalizeIdx z x := by
      rw [getD_map_lt _ _ _ (by rw [hps]; simp), hps, getD_append_head]
    have htake : (ps.map (normalizeIdx z)).take pre.length = pre.map (normalizeIdx z) := by
      rw [hps, norm_take_prefix]
    have hnb := hgood pre.length hjn
    unfold badAt at hnb
    push_neg at hnb
    rcases hnb with ⟨hlt, hnm⟩
    rw [hnorm_j] at hlt
    rw [hnorm_j, htake] at hnm
    have hsnoc : countsOf n (pre.map (normalizeIdx z) ++ [normalizeIdx z x])
        = countsOf n ((pre ++ [x]).map (normalizeIdx z)) := by
      rw [List.map_append]
      rfl
    show checkFold z (countsOf n (pre.map (normalizeIdx z))) (x :: rest) = _
    simp only [checkFold]
    rw [if_neg (by rw [countsOf_length]; omega)]
    rw [if_neg (by
      rw [countsOf_getD n _ _ (by omega)]
      intro hpos
      exact hnm (List.count_pos_iff.mp hpos))]
    rw [countsOf_snoc n _ _ (by omega), hsnoc]
    exact ih (pre ++ [x]) (by rw [hps, List.append_assoc]; rfl)

theorem checkFold_err (z : Bool) (n : Nat) (ps : List Nat) (hn : ps.length = n)
    (j : Nat) (hj : j < n) (hbad : badAt (ps.map (normalizeIdx z)) n j)
    (hmin : ∀ i, i < j → ¬ badAt (ps.map (normalizeIdx z)) n i) :
    ∀ (l pre : List Nat), ps = pre ++ l → pre.length ≤ j →
      checkFold z (countsOf n (pre.map (normalizeIdx z))) l =
        .error (if n ≤ (ps.map (normalizeIdx z)).getD j 0
          then .outOfRange (ps.getD j 0) n
          else .duplicateValue (ps.getD j 0)) := by
  intro l
  induction l with
  | nil =>
    intro pre hps hlen
    rw [hps, List.append_nil] at hn
    omega
  | cons x rest ih =>
    intro pre hps hlen
    have hnorm_j : (ps.map (normalizeIdx z)).getD pre.length 0 = normalizeIdx z x := by
      rw [getD_map_lt _ _ _ (by rw [hps]; simp), hps, getD_append_head]
    have htake : (ps.map (normalizeIdx z)).take pre.length = pre.map (normalizeIdx z) := by
      rw [hps, norm_take_prefix]
    rcases Nat.eq_or_lt_of_le hlen with heq | hlt
    · -- the head is the first offender
      have hx_ps : ps.getD j 0 = x := by
        rw [hps, ← heq, getD_append_head]
      unfold badAt at hbad
      subst heq
      rw [hnorm_j] at hbad ⊢
      show checkFold z (countsOf n (pre.map (normalizeIdx z))) (x :: rest) = _
      simp only [checkFold]
      by_cases hoor : n ≤ normalizeIdx z x
      · rw [if_pos (by rw [countsOf_length]; omega), if_pos hoor, hx_ps, countsOf_length]
      · rw [if_neg (by rw [countsOf_length]; omega)]
        have hmem : normalizeIdx z x ∈ pre.map (normalizeIdx z) := by
          rcases hbad with h | h
          · omega
          · rwa [htake] at h
        rw [if_pos (by
          rw [countsOf_getD n _ _ (by omega)]
          exact List.count_pos_iff.mpr hmem), if_neg hoor, hx_ps]
    · -- the head is clean: step forward
      have hnb := hmin pre.length hlt
      unfold badAt at hnb
      push_neg at hnb
      rcases hnb with ⟨hltn, hnm⟩
      rw [hnorm_j] at hltn
      rw [hnorm_j, htake] at hnm
      have hsnoc : countsOf n (pre.map (normalizeIdx z) ++ [normalizeIdx z x])
          = countsOf n ((pre ++ [x]).map (normalizeIdx z)) := by
        rw [List.map_append]
        rfl
      show checkFold z (countsOf n (pre.map (normalizeIdx z))) (x :: rest) = _
      simp only [checkFold]
      rw [if_neg (by rw [countsOf_length]; omega)]
      rw [if_neg (by
        rw [countsOf_getD n _ _ (by omega)]
        intro hpos
        exact hnm (List.count_pos_iff.mp hpos))]
      rw [countsOf_snoc n _ _ (by omega), hsnoc]
      exact ih (pre ++ [x]) (by rw [hps, List.append_assoc]; rfl) (by simp; omega)

theorem nodup_of_notin_take :
    ∀ l : List Nat, (∀ j, j < l.length → l.getD j 0 ∉ l.take j) → l.Nodup := by
  intro l
  induction l with
  | nil => intro _; exact List.nodup_nil
  | cons x xs ih =>
    intro h
    apply List.nodup_cons.mpr
    constructor
    · intro hmem
      rcases List.mem_iff_getElem.mp hmem with ⟨i, hi, hget⟩
      apply h (i + 1) (by simpa using Nat.succ_lt_succ hi)
      rw [List.getD_cons_succ, List.take_succ_cons, List.getD_eq_getElem _ _ hi, hget]
      exact List.mem_cons_self x _
    · apply ih
      intro j hj hmem
      apply h (j + 1) (by simpa using Nat.succ_lt_succ hj)
      rw [List.getD_cons_succ, List.take_succ_cons]
      exact List.mem_cons_of_mem x hmem

theorem noBad_iff_perm (m : List Nat) (n : Nat) (hlen : m.length = n) :
    (∀ j, j < n → ¬ badAt m n j) ↔ m.Perm (List.range n) := by
  constructor
  · intro h
    have hlt : ∀ x ∈ m, x < n := by
      intro x hx
      rcases List.mem_iff_getElem.mp hx with ⟨i, hi, rfl⟩
      have h2 := h i (by omega)
      unfold badAt at h2
      push_neg at h2
      rcases h2 with ⟨h1, _⟩
      rw [List.getD_eq_getElem _ _ hi] at h1
      omega
    have hnd : m.Nodup := by
      apply nodup_of_notin_take
      intro j hj hmem
      exact (h j (by omega)) (Or.inr hmem)
    apply List.perm_of_nodup_nodup_toFinset_eq hnd (List.nodup_range n)
    apply Finset.eq_of_subset_of_card_le
    · intro x hx
      exact List.mem_toFinset.mpr (List.mem_range.mpr (hlt x (List.mem_toFinset.mp hx)))
    · rw [List.toFinset_card_of_nodup hnd, List.toFinset_card_of_nodup (List.nodup_range n)]
      simp [hlen]
  · intro hperm j hj
    unfold badAt
    push_neg
    have hj' : j < m.length := by omega
    constructor
    · rw [List.getD_eq_getElem _ _ hj']
      have h1 : m[j] ∈ List.range n := hperm.mem_iff.mp (List.getElem_mem hj')
      have h2 := List.mem_range.mp h1
      omega
    · rw [List.getD_eq_getElem _ _ hj']
      intro hmem
      have hnd : m.Nodup := hperm.nodup_iff.mpr (List.nodup_range n)
      have hsplit := List.take_append_drop j m
      have hnd2 : (m.take j ++ m.drop j).Nodup := by rwa [hsplit]
      have hdisj := List.disjoint_of_nodup_append hnd2
      have hdrop : m[j] ∈ m.drop j := by
        have h1 : (m.drop j)[0]? = m[j]? := by rw [List.getElem?_drop, Nat.add_zero]
        have h2 : (m.drop j)[0]? = some m[j] := h1.trans (List.getElem?_eq_getElem hj')
        rcases List.getElem?_eq_some.mp h2 with ⟨hh, heq⟩
        rw [← heq]
        exact List.getElem_mem hh
      exact hdisj hmem hdrop

theorem parseTokens_length (tokens : List String) (ps : List Nat)
    (h : parseTokens tokens = .ok ps) : ps.length = tokens.length := by
  induction tokens generalizing ps with
  | nil =>
    unfold parseTokens at h
    rcases h with ⟨⟩
    rfl
  | cons s rest ih =>
    unfold parseTokens at h
    cases hp : parseU64 s with
    | error e => rw [hp] at h; cases h
    | ok v =>
      rw [hp] at h
      cases hr : parseTokens rest with
      | error e => rw [hr] at h; cases h
      | ok vs =>
        rw [hr] at h
        rcases h with ⟨⟩
        simp [ih vs hr]

theorem parseTokens_err (s e : String) :
    ∀ (pre post : List String), (∀ t ∈ pre, (parseU64 t).isOk = true) →
      parseU64 s = .error e →
      parseTokens (pre ++ s :: post) = .error (.parseFailure s e) := by
  intro pre
  induction pre with
  | nil =>
    intro post _ hs
    show parseTokens (s :: post) = _
    unfold parseTokens
    rw [hs]
  | cons t ts ih =>
    intro post hok hs
    have ht := hok t (List.mem_cons_self t ts)
    show parseTokens (t :: (ts ++ s :: post)) = _
    unfold parseTokens
    cases hp : parseU64 t with
    | error e2 =>
      rw [hp] at ht
      cases ht
    | ok v =>
      rw [ih post (fun u hu => hok u (List.mem_cons_of_mem t hu)) hs]

theorem exceptBind_ok {ε α β : Type} (a : α) (f : α → Except ε β) :
    Except.bind (.ok a) f = f a := rfl

theorem exceptBind_error {ε α β : Type} (e : ε) (f : α → Except ε β) :
    Except.bind (.error e) f = .error e := rfl

theorem validate_permutation_parsed (tokens : List String) (ps : List Nat)
    (hp : parseTokens tokens = .ok ps) :
    validate_permutation tokens =
      Except.bind (checkFold (ps.contains 0) (List.replicate ps.length 0) ps)
        (fun occurrence_count =>
          if occurrence_count.all (fun c => 1 ≤ c) then
            .ok (ps.map (normalizeIdx (ps.contains 0)))
          else .error .assertionFailure) := by
  unfold validate_permutation
  rw [hp]
  rfl

theorem replicate_eq_countsOf (n : Nat) : List.replicate n 0 = countsOf n [] := by
  symm
  rw [List.eq_replicate_iff]
  refine ⟨by simp [countsOf], ?_⟩
  intro b hb
  simp only [countsOf] at hb
  rcases List.mem_map.mp hb with ⟨i, _, rfl⟩
  simp

theorem countsOf_all_pos (n : Nat) (m : List Nat) (hperm : m.Perm (List.range n)) :
    (countsOf n m).all (fun c => 1 ≤ c) = true := by
  rw [List.all_eq_true]
  intro c hc
  simp only [countsOf] at hc
  rcases List.mem_map.mp hc with ⟨i, hi, rfl⟩
  have hmem : i ∈ m := hperm.mem_iff.mpr (by simpa using hi)
  have hpos := List.count_pos_iff.mpr hmem
  simpa using hpos

/-- C7 (amended): permutation validation.  A first unparsable token yields
its parse failure.  When every token parses, with 0-based indexing exactly
when a zero occurs: validation succeeds (returning the normalized sequence)
exactly when the normalized sequence is a permutation of `0..n`, and
otherwise it fails at the first violating position `j` — with the
out-of-range error when the normalized value at `j` is not in `[0, n)`, and
with the duplicate error when it repeats an earlier value. -/
theorem C7_validate_permutation_spec (tokens : List String) :
    (∀ s e, (∃ pre post, tokens = pre ++ s :: post ∧
        (∀ t ∈ pre, (parseU64 t).isOk = true) ∧ parseU64 s = .error e) →
      validate_permutation tokens = .error (.parseFailure s e)) ∧
    (∀ ps, parseTokens tokens = .ok ps →
      ((validate_permutation tokens = .ok (ps.map (normalizeIdx (ps.contains 0))) ↔
          (ps.map (normalizeIdx (ps.contains 0))).Perm (List.range tokens.length)) ∧
        (¬ (ps.map (normalizeIdx (ps.contains 0))).Perm (List.range tokens.length) →
          ∃ j, j < ps.length ∧
            badAt (ps.map (normalizeIdx (ps.contains 0))) tokens.length j ∧
            (∀ i, i < j → ¬ badAt (ps.map (normalizeIdx (ps.contains 0))) tokens.length i) ∧
            validate_permutation tokens = .error
              (if tokens.length ≤ (ps.map (normalizeIdx (ps.contains 0))).getD j 0
               then .outOfRange (ps.getD j 0) tokens.length
               else .duplicateValue (ps.getD j 0))))) := by
  constructor
  · rintro s e ⟨pre, post, htok, hok, herr⟩
    have hp := parseTokens_err s e pre post hok herr
    rw [htok]
    unfold validate_permutation
    rw [hp]
    rfl
  · intro ps hp
    have hlen : ps.length = tokens.length := parseTokens_length tokens ps hp
    have hmlen : (ps.map (normalizeIdx (ps.contains 0))).length = tokens.length := by
      simp [hlen]
    have herr_case : ¬ (ps.map (normalizeIdx (ps.contains 0))).Perm (List.range tokens.length) →
        ∃ j, j < ps.length ∧
          badAt (ps.map (normalizeIdx (ps.contains 0))) tokens.length j ∧
          (∀ i, i < j → ¬ badAt (ps.map (normalizeIdx (ps.contains 0))) tokens.length i) ∧
          validate_permutation tokens = .error
            (if tokens.length ≤ (ps.map (normalizeIdx (ps.contains 0))).getD j 0
             then .outOfRange (ps.getD j 0) tokens.length
             else .duplicateValue (ps.getD j 0)) := by
      intro hnp
      have hexP : ∃ j, badAt (ps.map (normalizeIdx (ps.contains 0))) tokens.length j := by
        by_contra hno
        push_neg at hno
        exact hnp ((noBad_iff_perm _ _ hmlen).mp (fun j _ => hno j))
      have hex2 : ∃ j, j < tokens.length ∧
          badAt (ps.map (normalizeIdx (ps.contains 0))) tokens.length j := by
        by_contra hno
        push_neg at hno
        apply hnp
        apply (noBad_iff_perm _ _ hmlen).mp
        intro j hj
        exact hno j hj
      have hjlt : Nat.find hexP < tokens.length :=
        lt_of_le_of_lt (Nat.find_le hex2.choose_spec.2) hex2.choose_spec.1
      have herr := checkFold_err (ps.contains 0) tokens.length ps hlen (Nat.find hexP) hjlt
        (Nat.find_spec hexP) (fun i hi => Nat.find_min hexP hi) ps [] rfl (by simp)
      simp only [List.map_nil] at herr
      refine ⟨Nat.find hexP, by omega, Nat.find_spec hexP,
        fun i hi => Nat.find_min hexP hi, ?_⟩
      rw [validate_permutation_parsed tokens ps hp, hlen, replicate_eq_countsOf, herr,
        exceptBind_error]
    refine ⟨⟨?_, ?_⟩, herr_case⟩
    · intro hok
      by_contra hnp
      rcases herr_case hnp with ⟨j, _, _, _, herr⟩
      rw [herr] at hok
      cases hok
    · intro hperm
      have hok := checkFold_ok (ps.contains 0) tokens.length ps hlen
        ((noBad_iff_perm _ _ hmlen).mpr hperm) ps [] rfl
      simp only [List.map_nil] at hok
      rw [validate_permutation_parsed tokens ps hp, hlen, replicate_eq_countsOf, hok,
        exceptBind_ok]
      rw [if_pos (countsOf_all_pos tokens.length _ hperm)]

/-- Counterexample to C7 as stated: for tokens `["1", "1", "7"]` (1-based, so
normalized `[0, 0, 6]` with `n = 3`) some normalized value is out of
`[0, 3)`, yet validation reports the duplicate error for value 1, not an
out-of-range error. -/
theorem C7_validate_permutation_counterexample :
    parseTokens ["1", "1", "7"] = .ok [1, 1, 7] ∧
    (3 : Nat) ≤ ([1, 1, 7].map (normalizeIdx (([1, 1, 7] : List Nat).contains 0))).getD 2 0 ∧
    validate_permutation ["1", "1", "7"] = .error (.duplicateValue 1) ∧
    ∀ v b : Nat, PermError.duplicateValue 1 ≠ .outOfRange v b := by
  refine ⟨by decide, by decide, by decide, ?_⟩
  intro v b h
  cases h

/-- Witness for C7: the token `x` does not parse, so validation reports its
parse failure; and `["2"]` fails with the out-of-range error for value 2. -/
theorem C7_validate_permutation_spec_witness :
    validate_permutation ["x"] = .error (.parseFailure "x" "invalid digit found in string") ∧
    validate_permutation ["0", "1"] = .ok [0, 1] := by
  constructor
  · apply (C7_validate_permutation_spec ["x"]).1 "x" "invalid digit found in string"
    refine ⟨[], [], rfl, ?_, by decide⟩
    intro t ht
    cases ht
  · exact (((C7_validate_permutation_spec ["0", "1"]).2 [0, 1] (by decide)).1.mpr
      (by decide)).trans (by decide)

/-- C10: when the parsed sequence contains no zero (1-based mode), every
parsed value is at least 1, so the `x - 1` normalization never underflows:
adding 1 back recovers the value. -/
theorem C10_normalize_no_underflow (tokens : List String) (ps : List Nat)
    (hp : parseTokens tokens = .ok ps) (hz : ps.contains 0 = false) :
    ∀ x ∈ ps, 1 ≤ x ∧ normalizeIdx (ps.contains 0) x + 1 = x := by
  intro x hx
  have h0 : (0 : Nat) ∉ ps := by
    simp at hz
    exact hz
  have hx0 : x ≠ 0 := by
    intro h
    subst h
    exact h0 hx
  refine ⟨by omega, ?_⟩
  rw [hz]
  simp only [normalizeIdx, Bool.false_eq_true, if_false]
  omega

/-- Witness for C10 at tokens `["2", "1"]`, value 2. -/
theorem C10_normalize_no_underflow_witness :
    1 ≤ 2 ∧ normalizeIdx (([2, 1] : List Nat).contains 0) 2 + 1 = 2 :=
  C10_normalize_no_underflow ["2", "1"] [2, 1] (by decide) (by decide) 2
    (by decide)

theorem eraseDups_loop_eq (l : List String) :
    ∀ acc : List String, l.Nodup → (∀ x ∈ l, x ∉ acc) →
      List.eraseDups.loop l acc = acc.reverse ++ l := by
  induction l with
  | nil => intro acc _ _; simp [List.eraseDups.loop]
  | cons x xs ih =>
    intro acc hnd hdisj
    have hx : x ∉ acc := hdisj x (List.mem_cons_self x xs)
    have helem : acc.elem x = false := by
      cases heq : acc.elem x
      · rfl
      · exact absurd (List.elem_iff.mp heq) hx
    show List.eraseDups.loop (x :: xs) acc = acc.reverse ++ x :: xs
    unfold List.eraseDups.loop
    rw [helem]
    rw [ih (x :: acc) (List.nodup_cons.mp hnd).2 ?_]
    · simp
    · intro y hy hmem
      rcases List.mem_cons.mp hmem with h | h
      · subst h
        exact (List.nodup_cons.mp hnd).1 hy
      · exact hdisj y (List.mem_cons_of_mem x hy) h

theorem eraseDups_eq_self (l : List String) (h : l.Nodup) : l.eraseDups = l := by
  unfold List.eraseDups
  rw [eraseDups_loop_eq l [] h (by intro x _ hmem; cases hmem)]
  rfl

theorem evalGate_congr (a a' : String → Bool) (g : Gate)
    (h : ∀ v ∈ gateVars g, a v = a' v) : evalGate a g = evalGate a' g := by
  induction g with
  | Variable name => exact h name (by simp [gateVars])
  | Constant b => rfl
  | Negation g ih => simp only [evalGate, ih (fun v hv => h v (by simpa [gateVars] using hv))]
  | Conjunction l r ihl ihr =>
    simp only [evalGate,
      ihl (fun v hv => h v (by simp [gateVars]; exact Or.inl hv)),
      ihr (fun v hv => h v (by simp [gateVars]; exact Or.inr hv))]
  | Disjunction l r ihl ihr =>
    simp only [evalGate,
      ihl (fun v hv => h v (by simp [gateVars]; exact Or.inl hv)),
      ihr (fun v hv => h v (by simp [gateVars]; exact Or.inr hv))]
  | Xor l r ihl ihr =>
    simp only [evalGate,
      ihl (fun v hv => h v (by simp [gateVars]; exact Or.inl hv)),
      ihr (fun v hv => h v (by simp [gateVars]; exact Or.inr hv))]

theorem gateVars_children (g : Gate) : ∀ c ∈ children g, ∀ v ∈ gateVars c, v ∈ gateVars g := by
  intro c hc v hv
  cases g with
  | Variable name => simp [children] at hc
  | Constant b => simp [children] at hc
  | Negation g1 =>
    simp only [children, List.mem_singleton] at hc
    subst hc
    exact hv
  | Conjunction l r =>
    simp only [children, List.mem_cons, List.mem_singleton] at hc
    rcases hc with rfl | rfl | hc
    · exact List.mem_append.mpr (Or.inl hv)
    · exact List.mem_append.mpr (Or.inr hv)
    · cases hc
  | Disjunction l r =>
    simp only [children, List.mem_cons, List.mem_singleton] at hc
    rcases hc with rfl | rfl | hc
    · exact List.mem_append.mpr (Or.inl hv)
    · exact List.mem_append.mpr (Or.inr hv)
    · cases hc
  | Xor l r =>
    simp only [children, List.mem_cons, List.mem_singleton] at hc
    rcases hc with rfl | rfl | hc
    · exact List.mem_append.mpr (Or.inl hv)
    · exact List.mem_append.mpr (Or.inr hv)
    · cases hc

/-- Post-order processing discipline: every element of the list has all its
operands among the elements already seen. -/
def ChildrenBefore (seen : List Gate) : List Gate → Prop
  | [] => True
  | g :: rest => (∀ c ∈ children g, c ∈ seen) ∧ ChildrenBefore (g :: seen) rest

theorem ChildrenBefore_mono : ∀ (L seen seen' : List Gate), (∀ x ∈ seen, x ∈ seen') →
    ChildrenBefore seen L → ChildrenBefore seen' L := by
  intro L
  induction L with
  | nil => intro _ _ _ _; trivial
  | cons g rest ih =>
    intro seen seen' hsub ⟨hg, hrest⟩
    exact ⟨fun c hc => hsub c (hg c hc),
      ih (g :: seen) (g :: seen') (fun x hx => by
        rcases List.mem_cons.mp hx with h | h
        · exact h ▸ List.mem_cons_self g seen'
        · exact List.mem_cons_of_mem g (hsub x h)) hrest⟩

theorem ChildrenBefore_append : ∀ (A B seen : List Gate),
    ChildrenBefore seen A → ChildrenBefore (A ++ seen) B → ChildrenBefore seen (A ++ B) := by
  intro A
  induction A with
  | nil => intro B seen _ hB; exact hB
  | cons g rest ih =>
    intro B seen ⟨hg, hrest⟩ hB
    refine ⟨hg, ih B (g :: seen) hrest ?_⟩
    apply ChildrenBefore_mono B ((g :: rest) ++ seen) (rest ++ (g :: seen)) ?_ hB
    intro x hx
    simp only [List.mem_append, List.mem_cons] at hx ⊢
    tauto

theorem self_mem_postVisit (g : Gate) : g ∈ postVisit g := by
  cases g <;> simp [postVisit]

theorem ChildrenBefore_postVisit (g : Gate) : ∀ seen, ChildrenBefore seen (postVisit g) := by
  induction g with
  | Variable name => intro seen; exact ⟨by simp [children], trivial⟩
  | Constant b => intro seen; exact ⟨by simp [children], trivial⟩
  | Negation g ih =>
    intro seen
    apply ChildrenBefore_append _ _ _ (ih seen)
    refine ⟨?_, trivial⟩
    intro c hc
    simp only [children, List.mem_singleton] at hc
    subst hc
    exact List.mem_append.mpr (Or.inl (self_mem_postVisit c))
  | Conjunction l r ihl ihr =>
    intro seen
    simp only [postVisit]
    rw [List.append_assoc]
    apply ChildrenBefore_append _ _ _ (ihl seen)
    apply ChildrenBefore_append _ _ _ (ihr (postVisit l ++ seen))
    refine ⟨?_, trivial⟩
    intro c hc
    simp only [children, List.mem_cons, List.mem_singleton] at hc
    rcases hc with h | h | h
    · subst h
      simp [List.mem_append, self_mem_postVisit]
    · subst h
      simp [List.mem_append, self_mem_postVisit]
    · cases h
  | Disjunction l r ihl ihr =>
    intro seen
    simp only [postVisit]
    rw [List.append_assoc]
    apply ChildrenBefore_append _ _ _ (ihl seen)
    apply ChildrenBefore_append _ _ _ (ihr (postVisit l ++ seen))
    refine ⟨?_, trivial⟩
    intro c hc
    simp only [children, List.mem_cons, List.mem_singleton] at hc
    rcases hc with h | h | h
    · subst h
      simp [List.mem_append, self_mem_postVisit]
    · subst h
      simp [List.mem_append, self_mem_postVisit]
    · cases h
  | Xor l r ihl ihr =>
    intro seen
    simp only [postVisit]
    rw [List.append_assoc]
    apply ChildrenBefore_append _ _ _ (ihl seen)
    apply ChildrenBefore_append _ _ _ (ihr (postVisit l ++ seen))
    refine ⟨?_, trivial⟩
    intro c hc
    simp only [children, List.mem_cons, List.mem_singleton] at hc
    rcases hc with h | h | h
    · subst h
      simp [List.mem_append, self_mem_postVisit]
    · subst h
      simp [List.mem_append, self_mem_postVisit]
    · cases h

theorem lookupGate_insertGate (s : CState) (ci : Nat) (g sub : Gate) (ci' : Nat) (g' : Gate) :
    lookupGate (insertGate s ci g sub) ci' g' =
      if (ci', g') = (ci, g) then some sub else lookupGate s ci' g' := rfl

theorem lookupGate_insertInput (s : CState) (ci : Nat) (name : String) (sub : Gate)
    (ci' : Nat) (g' : Gate) :
    lookupGate (insertInput s ci name sub) ci' g' = lookupGate s ci' g' := rfl

theorem lookupInput_insertInput (s : CState) (ci : Nat) (name : String) (sub : Gate)
    (ci' : Nat) (name' : String) :
    lookupInput (insertInput s ci name sub) ci' name' =
      if (ci', name') = (ci, name) then some sub else lookupInput s ci' name' := rfl

theorem lookupInput_insertGate (s : CState) (ci : Nat) (g sub : Gate)
    (ci' : Nat) (name' : String) :
    lookupInput (insertGate s ci g sub) ci' name' = lookupInput s ci' name' := rfl

/-- Monotonicity of the gate-substitution cache: nothing is ever removed. -/
def gateCacheLe (s s' : CState) : Prop :=
  ∀ ci g, (lookupGate s ci g).isSome = true → (lookupGate s' ci g).isSome = true

theorem gateCacheLe_refl (s : CState) : gateCacheLe s s := fun _ _ h => h

theorem gateCacheLe_trans {s1 s2 s3 : CState}
    (h1 : gateCacheLe s1 s2) (h2 : gateCacheLe s2 s3) : gateCacheLe s1 s3 :=
  fun ci g h => h2 ci g (h1 ci g h)

theorem gateCacheLe_insertGate (s : CState) (ci : Nat) (g sub : Gate) :
    gateCacheLe s (insertGate s ci g sub) := by
  intro ci' g' h
  rw [lookupGate_insertGate]
  by_cases he : (ci', g') = (ci, g)
  · rw [if_pos he]; rfl
  · rw [if_neg he]; exact h

theorem gateCacheLe_insertInput (s : CState) (ci : Nat) (name : String) (sub : Gate) :
    gateCacheLe s (insertInput s ci name sub) := by
  intro ci' g' h
  rw [lookupGate_insertInput]
  exact h

theorem foldl_lastIdx {P : Nat → Prop} (name : String) :
    ∀ (ps : List (Nat × String)) (acc : Option Nat),
      (∀ i, acc = some i → P i) → (∀ p ∈ ps, P p.1) →
      ∀ i, ps.foldl (fun acc p => if p.2 = name then some p.1 else acc) acc = some i → P i := by
  intro ps
  induction ps with
  | nil => intro acc hacc _ i h; exact hacc i h
  | cons p rest ih =>
    intro acc hacc hps i h
    apply ih _ ?_ (fun q hq => hps q (List.mem_cons_of_mem p hq)) i h
    intro i' hi'
    change (if p.2 = name then some p.1 else acc) = some i' at hi'
    by_cases hp : p.2 = name
    · rw [if_pos hp] at hi'
      cases hi'
      exact hps p (List.mem_cons_self p rest)
    · rw [if_neg hp] at hi'
      exact hacc i' hi'

theorem foldl_lastIdx_isSome (name : String) :
    ∀ (ps : List (Nat × String)) (acc : Option Nat),
      ((∃ p ∈ ps, p.2 = name) ∨ acc.isSome = true) →
      (ps.foldl (fun acc p => if p.2 = name then some p.1 else acc) acc).isSome = true := by
  intro ps
  induction ps with
  | nil =>
    intro acc h
    rcases h with ⟨p, hp, _⟩ | h
    · cases hp
    · exact h
  | cons p rest ih =>
    intro acc h
    apply ih
    by_cases hp : p.2 = name
    · right
      show (if p.2 = name then some p.1 else acc).isSome = true
      rw [if_pos hp]
      rfl
    · rcases h with ⟨q, hq, hqe⟩ | h
      · rcases List.mem_cons.mp hq with rfl | hq2
        · exact absurd hqe hp
        · exact Or.inl ⟨q, hq2, hqe⟩
      · right
        show (if p.2 = name then some p.1 else acc).isSome = true
        rw [if_neg hp]
        exact h

theorem lastIdxOf_lt (l : List String) (name : String) (i : Nat)
    (h : lastIdxOf l name = some i) : i < l.length := by
  apply foldl_lastIdx (P := fun i => i < l.length) name l.enum none ?_ ?_ i h
  · intro _ h
    cases h
  · intro p hp
    rcases List.getElem?_eq_some.mp (List.mem_enum_iff_getElem?.mp hp) with ⟨hh, _⟩
    exact hh

theorem lastIdxOf_isSome (l : List String) (name : String) (h : name ∈ l) :
    (lastIdxOf l name).isSome = true := by
  apply foldl_lastIdx_isSome
  left
  rcases List.mem_iff_getElem.mp h with ⟨i, hi, hget⟩
  refine ⟨(i, name), ?_, rfl⟩
  apply List.mem_enum_iff_getElem?.mpr
  show l[i]? = some name
  rw [List.getElem?_eq_getElem hi, hget]

/-- Outputs of circuit `j` only reference declared inputs of circuit `j`
(the well-formedness fact the chain lemmas thread through levels). -/
def wfOutputs (cs : List Circuit) (j : Nat) : Prop :=
  ∀ p ∈ (cs.getD j default).outputs, ∀ v ∈ gateVars p.1, v ∈ (cs.getD j default).inputs

theorem postVisit_vars (g : Gate) :
    ∀ x ∈ postVisit g, ∀ v ∈ gateVars x, v ∈ gateVars g := by
  induction g with
  | Variable name => intro x hx; simp only [postVisit, List.mem_singleton] at hx; subst hx; exact fun v hv => hv
  | Constant b => intro x hx; simp only [postVisit, List.mem_singleton] at hx; subst hx; exact fun v hv => hv
  | Negation g1 ih =>
    intro x hx
    simp only [postVisit, List.mem_append, List.mem_singleton] at hx
    rcases hx with hx | hx
    · exact fun v hv => ih x hx v hv
    · subst hx; exact fun v hv => hv
  | Conjunction l r ihl ihr =>
    intro x hx
    simp only [postVisit, List.mem_append, List.mem_singleton] at hx
    rcases hx with (hx | hx) | hx
    · exact fun v hv => List.mem_append.mpr (Or.inl (ihl x hx v hv))
    · exact fun v hv => List.mem_append.mpr (Or.inr (ihr x hx v hv))
    · subst hx; exact fun v hv => hv
  | Disjunction l r ihl ihr =>
    intro x hx
    simp only [postVisit, List.mem_append, List.mem_singleton] at hx
    rcases hx with (hx | hx) | hx
    · exact fun v hv => List.mem_append.mpr (Or.inl (ihl x hx v hv))
    · exact fun v hv => List.mem_append.mpr (Or.inr (ihr x hx v hv))
    · subst hx; exact fun v hv => hv
  | Xor l r ihl ihr =>
    intro x hx
    simp only [postVisit, List.mem_append, List.mem_singleton] at hx
    rcases hx with (hx | hx) | hx
    · exact fun v hv => List.mem_append.mpr (Or.inl (ihl x hx v hv))
    · exact fun v hv => List.mem_append.mpr (Or.inr (ihr x hx v hv))
    · subst hx; exact fun v hv => hv

theorem map_input_chain
    (prev : Gate → CState → Except CPanic (Gate × CState))
    (hprevN : ∀ g s, prev g s ≠ .error .missingSub)
    (hprevM : ∀ g s g' s', prev g s = .ok (g', s') → gateCacheLe s s')
    (cs : List Circuit) (ci : Nat) (name : String) (s : CState) :
    (map_inputWith prev cs ci name s ≠ .error .missingSub) ∧
    (∀ g' s', map_inputWith prev cs ci name s = .ok (g', s') → gateCacheLe s s') ∧
    ((name ∈ (cs.getD ci default).inputs ∨ ci = 0) →
      (ci ≠ 0 → ∀ g2 s2, (∀ v ∈ gateVars g2, v ∈ (cs.getD (ci - 1) default).inputs) →
        ∃ r, prev g2 s2 = .ok r) →
      (ci ≠ 0 → wfOutputs cs (ci - 1)) →
      ∃ r, map_inputWith prev cs ci name s = .ok r) := by
  cases hmemo : lookupInput s ci name with
  | some g =>
    have heq : map_inputWith prev cs ci name s = .ok (g, s) := by
      unfold map_inputWith
      simp only [hmemo]
    rw [heq]
    refine ⟨?_, ?_, ?_⟩
    · intro h
      cases h
    · intro g' s' he
      cases he
      exact gateCacheLe_refl s
    · intro _ _ _
      exact ⟨_, rfl⟩
  | none =>
    by_cases hci : ci = 0
    · subst hci
      have heq : map_inputWith prev cs 0 name s =
          .ok (Gate.Variable name, insertInput s 0 name (Gate.Variable name)) := by
        unfold map_inputWith
        simp only [hmemo]
        rfl
      rw [heq]
      refine ⟨?_, ?_, ?_⟩
      · intro h
        cases h
      · intro g' s' he
        cases he
        exact gateCacheLe_insertInput s 0 name (Gate.Variable name)
      · intro _ _ _
        exact ⟨_, rfl⟩
    · cases hidx : lastIdxOf (cs.getD ci default).inputs name with
      | none =>
        have heq : map_inputWith prev cs ci name s = .error .missingInput := by
          unfold map_inputWith
          simp only [hmemo, if_neg hci, hidx]
        rw [heq]
        refine ⟨?_, ?_, ?_⟩
        · intro h
          cases h
        · intro g' s' h
          cases h
        intro hmem _ _
        rcases hmem with hmem | hmem
        · have hs := lastIdxOf_isSome _ _ hmem
          rw [hidx] at hs
          cases hs
        · exact absurd hmem hci
      | some input_index =>
        cases hout : (cs.getD (ci - 1) default).outputs.get? input_index with
        | some output =>
          have houtmem : output ∈ (cs.getD (ci - 1) default).outputs := by
            rw [List.get?_eq_getElem?] at hout
            rcases List.getElem?_eq_some.mp hout with ⟨hh, hg2⟩
            rw [← hg2]
            exact List.getElem_mem hh
          cases hprev : prev output.1 s with
          | error e =>
            have heq : map_inputWith prev cs ci name s = .error e := by
              unfold map_inputWith
              simp only [hmemo, if_neg hci, hidx, hout, hprev]
            rw [heq]
            refine ⟨?_, ?_, ?_⟩
            · intro h
              cases h
              exact hprevN output.1 s hprev
            · intro g' s' h
              cases h
            · intro _ hT hwf
              rcases hT hci output.1 s (fun v hv => hwf hci output houtmem v hv) with ⟨r, hr⟩
              rw [hprev] at hr
              cases hr
          | ok pair =>
            obtain ⟨sub, s1⟩ := pair
            have heq : map_inputWith prev cs ci name s =
                .ok (sub, insertInput s1 ci name sub) := by
              unfold map_inputWith
              simp only [hmemo, if_neg hci, hidx, hout, hprev]
            rw [heq]
            refine ⟨?_, ?_, ?_⟩
            · intro h
              cases h
            · intro g' s' he
              cases he
              exact gateCacheLe_trans (hprevM _ _ _ _ hprev)
                (gateCacheLe_insertInput s1 ci name sub)
            · intro _ _ _
              exact ⟨_, rfl⟩
        | none =>
          cases halloc : allocate_name s.input_name_allocator name with
          | mk new_input_name alloc =>
            have heq : map_inputWith prev cs ci name s =
                .ok (Gate.Variable new_input_name,
                  insertInput
                    { s with
                      input_name_allocator := alloc
                      new_input_name_sequence :=
                        s.new_input_name_sequence ++ [new_input_name] }
                    ci name (Gate.Variable new_input_name)) := by
              unfold map_inputWith
              simp only [hmemo, if_neg hci, hidx, hout, halloc]
            rw [heq]
            refine ⟨?_, ?_, ?_⟩
            · intro h
              cases h
            · intro g' s' he
              cases he
              intro ci' g2 h
              exact h
            · intro _ _ _
              exact ⟨_, rfl⟩

theorem computeSub_chain
    (prev : Gate → CState → Except CPanic (Gate × CState))
    (hprevN : ∀ g s, prev g s ≠ .error .missingSub)
    (hprevM : ∀ g s g' s', prev g s = .ok (g', s') → gateCacheLe s s')
    (cs : List Circuit) (ci : Nat) (g : Gate) (s : CState)
    (hch : ∀ c ∈ children g, (lookupGate s ci c).isSome = true) :
    (computeSubWith prev cs ci g s ≠ .error .missingSub) ∧
    (∀ g' s', computeSubWith prev cs ci g s = .ok (g', s') → gateCacheLe s s') ∧
    ((∀ v ∈ gateVars g, v ∈ (cs.getD ci default).inputs) →
      (ci ≠ 0 → ∀ g2 s2, (∀ v ∈ gateVars g2, v ∈ (cs.getD (ci - 1) default).inputs) →
        ∃ r, prev g2 s2 = .ok r) →
      (ci ≠ 0 → wfOutputs cs (ci - 1)) →
      ∃ r, computeSubWith prev cs ci g s = .ok r) := by
  cases g with
  | Variable name =>
    have h := map_input_chain prev hprevN hprevM cs ci name s
    exact ⟨h.1, h.2.1, fun hvars hT hwf =>
      h.2.2 (Or.inl (hvars name (by simp [gateVars]))) hT hwf⟩
  | Constant b =>
    refine ⟨?_, ?_, ?_⟩
    · intro h
      cases h
    · intro g' s' he
      cases he
      exact gateCacheLe_refl s
    · intro _ _ _
      exact ⟨_, rfl⟩
  | Negation inner =>
    rcases Option.isSome_iff_exists.mp (hch inner (by simp [children])) with ⟨v, hv⟩
    have heq : computeSubWith prev cs ci (.Negation inner) s = .ok (.Negation v, s) := by
      unfold computeSubWith
      simp only [hv]
    rw [heq]
    refine ⟨?_, ?_, ?_⟩
    · intro h
      cases h
    · intro g' s' he
      cases he
      exact gateCacheLe_refl s
    · intro _ _ _
      exact ⟨_, rfl⟩
  | Conjunction l r =>
    rcases Option.isSome_iff_exists.mp (hch l (by simp [children])) with ⟨vl, hvl⟩
    rcases Option.isSome_iff_exists.mp (hch r (by simp [children])) with ⟨vr, hvr⟩
    have heq : computeSubWith prev cs ci (.Conjunction l r) s = .ok (.Conjunction vl vr, s) := by
      unfold computeSubWith
      simp only [hvl, hvr]
    rw [heq]
    refine ⟨?_, ?_, ?_⟩
    · intro h
      cases h
    · intro g' s' he
      cases he
      exact gateCacheLe_refl s
    · intro _ _ _
      exact ⟨_, rfl⟩
  | Disjunction l r =>
    rcases Option.isSome_iff_exists.mp (hch l (by simp [children])) with ⟨vl, hvl⟩
    rcases Option.isSome_iff_exists.mp (hch r (by simp [children])) with ⟨vr, hvr⟩
    have heq : computeSubWith prev cs ci (.Disjunction l r) s = .ok (.Disjunction vl vr, s) := by
      unfold computeSubWith
      simp only [hvl, hvr]
    rw [heq]
    refine ⟨?_, ?_, ?_⟩
    · intro h
      cases h
    · intro g' s' he
      cases he
      exact gateCacheLe_refl s
    · intro _ _ _
      exact ⟨_, rfl⟩
  | Xor l r =>
    rcases Option.isSome_iff_exists.mp (hch l (by simp [children])) with ⟨vl, hvl⟩
    rcases Option.isSome_iff_exists.mp (hch r (by simp [children])) with ⟨vr, hvr⟩
    have heq : computeSubWith prev cs ci (.Xor l r) s = .ok (.Xor vl vr, s) := by
      unfold computeSubWith
      simp only [hvl, hvr]
    rw [heq]
    refine ⟨?_, ?_, ?_⟩
    · intro h
      cases h
    · intro g' s' he
      cases he
      exact gateCacheLe_refl s
    · intro _ _ _
      exact ⟨_, rfl⟩

theorem processListWith_cons
    (prev : Gate → CState → Except CPanic (Gate × CState))
    (cs : List Circuit) (ci : Nat) (g : Gate) (rest : List Gate) (s : CState) :
    processListWith prev cs ci (g :: rest) s =
      if (lookupGate s ci g).isSome = true then processListWith prev cs ci rest s
      else
        match computeSubWith prev cs ci g s with
        | .error e => .error e
        | .ok (substitution, s1) =>
          processListWith prev cs ci rest (insertGate s1 ci g substitution) := rfl

theorem processList_chain
    (prev : Gate → CState → Except CPanic (Gate × CState))
    (hprevN : ∀ g s, prev g s ≠ .error .missingSub)
    (hprevM : ∀ g s g' s', prev g s = .ok (g', s') → gateCacheLe s s')
    (cs : List Circuit) (ci : Nat) :
    ∀ (L seen : List Gate) (s : CState),
      ChildrenBefore seen L →
      (∀ x ∈ seen, (lookupGate s ci x).isSome = true) →
      (processListWith prev cs ci L s ≠ .error .missingSub) ∧
      (∀ s', processListWith prev cs ci L s = .ok s' →
        gateCacheLe s s' ∧ ∀ x, (x ∈ L ∨ x ∈ seen) → (lookupGate s' ci x).isSome = true) ∧
      ((∀ x ∈ L, ∀ v ∈ gateVars x, v ∈ (cs.getD ci default).inputs) →
        (ci ≠ 0 → ∀ g2 s2, (∀ v ∈ gateVars g2, v ∈ (cs.getD (ci - 1) default).inputs) →
          ∃ r, prev g2 s2 = .ok r) →
        (ci ≠ 0 → wfOutputs cs (ci - 1)) →
        ∃ s', processListWith prev cs ci L s = .ok s') := by
  intro L
  induction L with
  | nil =>
    intro seen s _ hseen
    refine ⟨?_, ?_, ?_⟩
    · intro h
      cases h
    · intro s' he
      cases he
      refine ⟨gateCacheLe_refl s, ?_⟩
      intro x hx
      rcases hx with hx | hx
      · cases hx
      · exact hseen x hx
    · intro _ _ _
      exact ⟨s, rfl⟩
  | cons g rest ih =>
    intro seen s hcb hseen
    rcases hcb with ⟨hg, hrest⟩
    by_cases hcache : (lookupGate s ci g).isSome = true
    · have heq : processListWith prev cs ci (g :: rest) s =
          processListWith prev cs ci rest s := by
        rw [processListWith_cons, if_pos hcache]
      rw [heq]
      have hseen' : ∀ x ∈ g :: seen, (lookupGate s ci x).isSome = true := by
        intro x hx
        rcases List.mem_cons.mp hx with rfl | hx
        · exact hcache
        · exact hseen x hx
      rcases ih (g :: seen) s hrest hseen' with ⟨hN, hM, hT⟩
      refine ⟨hN, ?_, ?_⟩
      · intro s' he
        rcases hM s' he with ⟨hle, hall⟩
        refine ⟨hle, ?_⟩
        intro x hx
        rcases hx with hx | hx
        · rcases List.mem_cons.mp hx with rfl | hx
          · exact hall x (Or.inr (List.mem_cons_self x seen))
          · exact hall x (Or.inl hx)
        · exact hall x (Or.inr (List.mem_cons_of_mem g hx))
      · intro hvars hT2 hwf
        exact hT (fun x hx => hvars x (List.mem_cons_of_mem g hx)) hT2 hwf
    · have hch : ∀ c ∈ children g, (lookupGate s ci c).isSome = true := by
        intro c hc
        exact hseen c (hg c hc)
      rcases computeSub_chain prev hprevN hprevM cs ci g s hch with ⟨hcsN, hcsM, hcsT⟩
      cases hcs : computeSubWith prev cs ci g s with
      | error e =>
        have heq : processListWith prev cs ci (g :: rest) s = .error e := by
          rw [processListWith_cons, if_neg hcache, hcs]
        rw [heq]
        refine ⟨?_, ?_, ?_⟩
        · intro h
          cases h
          exact hcsN hcs
        · intro s' h
          cases h
        · intro hvars hT2 hwf
          rcases hcsT (fun v hv => hvars g (List.mem_cons_self g rest) v hv) hT2 hwf
            with ⟨r, hr⟩
          rw [hcs] at hr
          cases hr
      | ok pair =>
        obtain ⟨sub, s1⟩ := pair
        have heq : processListWith prev cs ci (g :: rest) s =
            processListWith prev cs ci rest (insertGate s1 ci g sub) := by
          rw [processListWith_cons, if_neg hcache, hcs]
        rw [heq]
        have hle1 : gateCacheLe s (insertGate s1 ci g sub) :=
          gateCacheLe_trans (hcsM sub s1 hcs) (gateCacheLe_insertGate s1 ci g sub)
        have hgcached : (lookupGate (insertGate s1 ci g sub) ci g).isSome = true := by
          rw [lookupGate_insertGate, if_pos rfl]
          rfl
        have hseen' : ∀ x ∈ g :: seen, (lookupGate (insertGate s1 ci g sub) ci x).isSome = true := by
          intro x hx
          rcases List.mem_cons.mp hx with rfl | hx
          · exact hgcached
          · exact hle1 ci x (hseen x hx)
        rcases ih (g :: seen) (insertGate s1 ci g sub) hrest hseen' with ⟨hN, hM, hT⟩
        refine ⟨hN, ?_, ?_⟩
        · intro s' he
          rcases hM s' he with ⟨hle, hall⟩
          refine ⟨gateCacheLe_trans hle1 hle, ?_⟩
          intro x hx
          rcases hx with hx | hx
          · rcases List.mem_cons.mp hx with rfl | hx
            · exact hall x (Or.inr (List.mem_cons_self x seen))
            · exact hall x (Or.inl hx)
          · exact hall x (Or.inr (List.mem_cons_of_mem g hx))
        · intro hvars hT2 hwf
          exact hT (fun x hx => hvars x (List.mem_cons_of_mem g hx)) hT2 hwf

theorem map_gateWith_chain
    (prev : Gate → CState → Except CPanic (Gate × CState))
    (hprevN : ∀ g s, prev g s ≠ .error .missingSub)
    (hprevM : ∀ g s g' s', prev g s = .ok (g', s') → gateCacheLe s s')
    (cs : List Circuit) (ci : Nat) (g : Gate) (s : CState) :
    (map_gateWith prev cs ci g s ≠ .error .missingSub) ∧
    (∀ g' s', map_gateWith prev cs ci g s = .ok (g', s') → gateCacheLe s s') ∧
    ((∀ v ∈ gateVars g, v ∈ (cs.getD ci default).inputs) →
      (ci ≠ 0 → ∀ g2 s2, (∀ v ∈ gateVars g2, v ∈ (cs.getD (ci - 1) default).inputs) →
        ∃ r, prev g2 s2 = .ok r) →
      (ci ≠ 0 → wfOutputs cs (ci - 1)) →
      ∃ r, map_gateWith prev cs ci g s = .ok r) := by
  rcases processList_chain prev hprevN hprevM cs ci (postVisit g) [] s
    (ChildrenBefore_postVisit g []) (by intro x hx; cases hx) with ⟨hN, hM, hT⟩
  cases hrun : processListWith prev cs ci (postVisit g) s with
  | error e =>
    have heq : map_gateWith prev cs ci g s = .error e := by
      unfold map_gateWith
      rw [hrun]
    rw [heq]
    refine ⟨?_, ?_, ?_⟩
    · intro h
      cases h
      exact hN hrun
    · intro g' s' h
      cases h
    · intro hvars hT2 hwf
      rcases hT (fun x hx v hv => hvars v (postVisit_vars g x hx v hv)) hT2 hwf with ⟨s', hs'⟩
      rw [hrun] at hs'
      cases hs'
  | ok s1 =>
    rcases hM s1 hrun with ⟨hle, hall⟩
    rcases Option.isSome_iff_exists.mp (hall g (Or.inl (self_mem_postVisit g))) with ⟨sub, hsub⟩
    have heq : map_gateWith prev cs ci g s = .ok (sub, s1) := by
      unfold map_gateWith
      rw [hrun]
      simp only [hsub]
    rw [heq]
    refine ⟨?_, ?_, ?_⟩
    · intro h
      cases h
    · intro g' s' he
      cases he
      exact hle
    · intro _ _ _
      exact ⟨_, rfl⟩

theorem mapGateAt_chain (cs : List Circuit) :
    ∀ ci : Nat,
      (∀ g s, mapGateAt cs ci g s ≠ .error .missingSub) ∧
      (∀ g s g' s', mapGateAt cs ci g s = .ok (g', s') → gateCacheLe s s') ∧
      ((∀ j, j < ci → wfOutputs cs j) →
        ∀ g s, (∀ v ∈ gateVars g, v ∈ (cs.getD ci default).inputs) →
          ∃ r, mapGateAt cs ci g s = .ok r) := by
  intro ci
  induction ci with
  | zero =>
    have h := map_gateWith_chain (fun _ _ => .error .missingInput)
      (by intro g s hh; cases hh) (by intro g s g' s' hh; cases hh) cs 0
    refine ⟨fun g s => (h g s).1, fun g s g' s' => (h g s).2.1 g' s', ?_⟩
    intro _ g s hvars
    exact (h g s).2.2 hvars (fun hc => absurd rfl hc) (fun hc => absurd rfl hc)
  | succ n ih =>
    rcases ih with ⟨ihN, ihM, ihT⟩
    have h := map_gateWith_chain (mapGateAt cs n) ihN ihM cs (n + 1)
    refine ⟨fun g s => (h g s).1, fun g s g' s' => (h g s).2.1 g' s', ?_⟩
    intro hwf g s hvars
    apply (h g s).2.2 hvars
    · intro _ g2 s2 hv2
      apply ihT (fun j hj => hwf j (by omega)) g2 s2
      simpa using hv2
    · intro _
      simpa using hwf n (by omega)

theorem runOutputs_cons (cs : List Circuit) (ci : Nat) (g : Gate) (name : String)
    (rest : List (Nat × Gate × String)) (s : CState) :
    runOutputs cs ((ci, g, name) :: rest) s =
      match allocate_new_output_name s name with
      | (name', s1) =>
        match mapGateAt cs ci g s1 with
        | .error e => .error e
        | .ok (g', s2) =>
          match runOutputs cs rest s2 with
          | .error e => .error e
          | .ok (outs, s3) => .ok ((g', name') :: outs, s3) := rfl

theorem runOutputs_chain (cs : List Circuit) :
    ∀ (L : List (Nat × Gate × String)) (s : CState),
      (runOutputs cs L s ≠ .error .missingSub) ∧
      ((∀ t ∈ L, (∀ j, j < t.1 → wfOutputs cs j) ∧
          (∀ v ∈ gateVars t.2.1, v ∈ (cs.getD t.1 default).inputs)) →
        ∃ r, runOutputs cs L s = .ok r) := by
  intro L
  induction L with
  | nil =>
    intro s
    refine ⟨?_, ?_⟩
    · intro h
      cases h
    · intro _
      exact ⟨_, rfl⟩
  | cons t rest ih =>
    intro s
    obtain ⟨ci, g, name⟩ := t
    rcases mapGateAt_chain cs ci with ⟨hN, hM, hT⟩
    cases halloc : allocate_new_output_name s name with
    | mk name' s1 =>
      have heq : runOutputs cs ((ci, g, name) :: rest) s =
          (match mapGateAt cs ci g s1 with
          | .error e => .error e
          | .ok (g', s2) =>
            match runOutputs cs rest s2 with
            | .error e => .error e
            | .ok (outs, s3) => .ok ((g', name') :: outs, s3)) := by
        rw [runOutputs_cons, halloc]
      cases hmg : mapGateAt cs ci g s1 with
      | error e =>
        rw [heq]
        simp only [hmg]
        refine ⟨?_, ?_⟩
        · intro h
          cases h
          exact hN g s1 hmg
        · intro hL
          rcases hT (hL (ci, g, name) (List.mem_cons_self _ _)).1 g s1
            (hL (ci, g, name) (List.mem_cons_self _ _)).2 with ⟨r, hr⟩
          rw [hmg] at hr
          cases hr
      | ok pair =>
        obtain ⟨g', s2⟩ := pair
        rcases ih s2 with ⟨ihN2, ihT2⟩
        cases hrun : runOutputs cs rest s2 with
        | error e =>
          rw [heq]
          simp only [hmg, hrun]
          refine ⟨?_, ?_⟩
          · intro h
            cases h
            exact ihN2 hrun
          · intro hL
            rcases ihT2 (fun t ht => hL t (List.mem_cons_of_mem _ ht)) with ⟨r, hr⟩
            rw [hrun] at hr
            cases hr
        | ok pair2 =>
          obtain ⟨outs, s3⟩ := pair2
          rw [heq]
          simp only [hmg, hrun]
          refine ⟨?_, ?_⟩
          · intro h
            cases h
          · intro _
            exact ⟨_, rfl⟩

theorem overhangOutputs_mem (cs : List Circuit) :
    ∀ t ∈ overhangOutputs cs, t.1 < cs.length ∧ (t.2.1, t.2.2) ∈ (cs.getD t.1 default).outputs := by
  intro t ht
  unfold overhangOutputs at ht
  rcases List.mem_flatMap.mp ht with ⟨p, hp, hmem⟩
  have hp2 : p ∈ cs.enum := List.mem_reverse.mp hp
  have hg := List.mem_enum_iff_getElem?.mp hp2
  rcases List.getElem?_eq_some.mp hg with ⟨hlt, hget⟩
  rcases List.mem_map.mp hmem with ⟨q, hq, rfl⟩
  refine ⟨hlt, ?_⟩
  have hgd : cs.getD p.1 default = p.2 := by
    rw [List.getD_eq_getElem _ _ hlt, hget]
  rw [hgd]
  simp only []
  have hq2 : q ∈ p.2.outputs := List.mem_of_mem_drop hq
  simpa using hq2

/-- C9: the operand lookups performed by `Concatenator::sub` never miss:
neither gate rewriting at any circuit index nor a whole concatenation run
can ever end in the missing-substitution panic, whatever the circuits, the
gate and the starting cache state. -/
theorem C9_sub_never_panics :
    (∀ (cs : List Circuit) (ci : Nat) (g : Gate) (s : CState),
      mapGateAt cs ci g s ≠ .error .missingSub) ∧
    (∀ cs : List Circuit, concatenate cs ≠ .error .missingSub) := by
  constructor
  · intro cs ci g s
    exact (mapGateAt_chain cs ci).1 g s
  · intro cs h
    cases cs with
    | nil => cases h
    | cons c rest =>
      unfold concatenate at h
      rcases hrun : runOutputs (c :: rest) (overhangOutputs (c :: rest)) (initState (c :: rest))
        with _ | _
      · rw [hrun] at h
        cases h
        exact (runOutputs_chain (c :: rest) (overhangOutputs (c :: rest))
          (initState (c :: rest))).1 hrun
      · rw [hrun] at h
        cases h

/-- C2: concatenation of the empty circuit list is a normal success
producing the empty circuit (no inputs, no outputs), and concatenation of
any list of well-formed circuits succeeds (no panic, no error). -/
theorem C2_concatenate_total :
    concatenate [] = .ok ⟨[], []⟩ ∧
    (∀ cs : List Circuit, (∀ c ∈ cs, wellFormed c) → ∃ c, concatenate cs = .ok c) := by
  refine ⟨rfl, ?_⟩
  intro cs hwf
  cases cs with
  | nil => exact ⟨_, rfl⟩
  | cons c rest =>
    have hwfo : ∀ j, j < (c :: rest).length → wfOutputs (c :: rest) j := by
      intro j hj
      intro p hp v hv
      have hmem : (c :: rest).getD j default ∈ c :: rest := by
        rw [List.getD_eq_getElem _ _ hj]
        exact List.getElem_mem hj
      exact (hwf _ hmem).2 p hp v hv
    have hside : ∀ t ∈ overhangOutputs (c :: rest),
        (∀ j, j < t.1 → wfOutputs (c :: rest) j) ∧
        (∀ v ∈ gateVars t.2.1, v ∈ ((c :: rest).getD t.1 default).inputs) := by
      intro t ht
      rcases overhangOutputs_mem (c :: rest) t ht with ⟨hlt, hout⟩
      refine ⟨fun j hj => hwfo j (by omega), ?_⟩
      intro v hv
      have hmem : (c :: rest).getD t.1 default ∈ c :: rest := by
        rw [List.getD_eq_getElem _ _ hlt]
        exact List.getElem_mem hlt
      exact (hwf _ hmem).2 (t.2.1, t.2.2) hout v hv
    rcases (runOutputs_chain (c :: rest) (overhangOutputs (c :: rest))
        (initState (c :: rest))).2 hside with ⟨r, hr⟩
    obtain ⟨outs, s'⟩ := r
    refine ⟨⟨s'.new_input_name_sequence, outs⟩, ?_⟩
    have hcc : concatenate (c :: rest) =
        match runOutputs (c :: rest) (overhangOutputs (c :: rest)) (initState (c :: rest)) with
        | .error e => .error e
        | .ok (outs, s) => .ok ⟨s.new_input_name_sequence, outs⟩ := rfl
    rw [hcc]
    simp only [hr]

/-- Witness for C2: concatenating a single well-formed one-gate circuit
succeeds. -/
theorem C2_concatenate_total_witness :
    ∃ c, concatenate [⟨["a"], [(.Variable "a", "")]⟩] = .ok c :=
  C2_concatenate_total.2 [⟨["a"], [(.Variable "a", "")]⟩] (by decide)

/-- At circuit index 0 the rewriting caches only ever hold identity
substitutions: gate entries map a gate to itself and input entries map a
name to its variable gate. -/
def IdCache0 (s : CState) : Prop :=
  (∀ g v, lookupGate s 0 g = some v → v = g) ∧
  (∀ name v, lookupInput s 0 name = some v → v = Gate.Variable name)

/-- State components untouched by gate rewriting at index 0. -/
def Keeps (s s' : CState) : Prop :=
  s'.input_name_allocator = s.input_name_allocator ∧
  s'.output_name_allocator = s.output_name_allocator ∧
  s'.new_input_name_sequence = s.new_input_name_sequence

theorem Keeps_refl (s : CState) : Keeps s s := ⟨rfl, rfl, rfl⟩

theorem Keeps_trans {s1 s2 s3 : CState} (h1 : Keeps s1 s2) (h2 : Keeps s2 s3) :
    Keeps s1 s3 :=
  ⟨h2.1.trans h1.1, h2.2.1.trans h1.2.1, h2.2.2.trans h1.2.2⟩

theorem map_input0_id (prev : Gate → CState → Except CPanic (Gate × CState))
    (cs : List Circuit) (name : String) (s : CState) (hid : IdCache0 s) :
    ∃ s', map_inputWith prev cs 0 name s = .ok (Gate.Variable name, s') ∧
      IdCache0 s' ∧ Keeps s s' ∧ gateCacheLe s s' := by
  cases hmemo : lookupInput s 0 name with
  | some g =>
    have hg := hid.2 name g hmemo
    subst hg
    have heq : map_inputWith prev cs 0 name s = .ok (Gate.Variable name, s) := by
      unfold map_inputWith
      simp only [hmemo]
    exact ⟨s, heq, hid, Keeps_refl s, gateCacheLe_refl s⟩
  | none =>
    have heq : map_inputWith prev cs 0 name s =
        .ok (Gate.Variable name, insertInput s 0 name (Gate.Variable name)) := by
      unfold map_inputWith
      simp only [hmemo]
      rfl
    refine ⟨_, heq, ⟨?_, ?_⟩, ⟨rfl, rfl, rfl⟩, gateCacheLe_insertInput s 0 name _⟩
    · intro g v h
      rw [lookupGate_insertInput] at h
      exact hid.1 g v h
    · intro name' v h
      rw [lookupInput_insertInput] at h
      by_cases he : ((0 : Nat), name') = (0, name)
      · rw [if_pos he] at h
        cases h
        cases he
        rfl
      · rw [if_neg he] at h
        exact hid.2 name' v h

theorem computeSub0_id (prev : Gate → CState → Except CPanic (Gate × CState))
    (cs : List Circuit) (g : Gate) (s : CState) (hid : IdCache0 s)
    (hch : ∀ c ∈ children g, (lookupGate s 0 c).isSome = true) :
    ∃ s', computeSubWith prev cs 0 g s = .ok (g, s') ∧
      IdCache0 s' ∧ Keeps s s' ∧ gateCacheLe s s' := by
  cases g with
  | Variable name => exact map_input0_id prev cs name s hid
  | Constant b => exact ⟨s, rfl, hid, Keeps_refl s, gateCacheLe_refl s⟩
  | Negation inner =>
    rcases Option.isSome_iff_exists.mp (hch inner (by simp [children])) with ⟨v, hv⟩
    have hvi := hid.1 inner v hv
    subst hvi
    refine ⟨s, ?_, hid, Keeps_refl s, gateCacheLe_refl s⟩
    unfold computeSubWith
    simp only [hv]
  | Conjunction l r =>
    rcases Option.isSome_iff_exists.mp (hch l (by simp [children])) with ⟨vl, hvl⟩
    rcases Option.isSome_iff_exists.mp (hch r (by simp [children])) with ⟨vr, hvr⟩
    have hl := hid.1 l vl hvl
    have hr := hid.1 r vr hvr
    subst hl
    subst hr
    refine ⟨s, ?_, hid, Keeps_refl s, gateCacheLe_refl s⟩
    unfold computeSubWith
    simp only [hvl, hvr]
  | Disjunction l r =>
    rcases Option.isSome_iff_exists.mp (hch l (by simp [children])) with ⟨vl, hvl⟩
    rcases Option.isSome_iff_exists.mp (hch r (by simp [children])) with ⟨vr, hvr⟩
    have hl := hid.1 l vl hvl
    have hr := hid.1 r vr hvr
    subst hl
    subst hr
    refine ⟨s, ?_, hid, Keeps_refl s, gateCacheLe_refl s⟩
    unfold computeSubWith
    simp only [hvl, hvr]
  | Xor l r =>
    rcases Option.isSome_iff_exists.mp (hch l (by simp [children])) with ⟨vl, hvl⟩
    rcases Option.isSome_iff_exists.mp (hch r (by simp [children])) with ⟨vr, hvr⟩
    have hl := hid.1 l vl hvl
    have hr := hid.1 r vr hvr
    subst hl
    subst hr
    refine ⟨s, ?_, hid, Keeps_refl s, gateCacheLe_refl s⟩
    unfold computeSubWith
    simp only [hvl, hvr]

theorem processList0_id (prev : Gate → CState → Except CPanic (Gate × CState))
    (cs : List Circuit) :
    ∀ (L seen : List Gate) (s : CState),
      ChildrenBefore seen L →
      (∀ x ∈ seen, (lookupGate s 0 x).isSome = true) →
      IdCache0 s →
      ∃ s', processListWith prev cs 0 L s = .ok s' ∧ IdCache0 s' ∧ Keeps s s' ∧
        gateCacheLe s s' ∧ ∀ x, (x ∈ L ∨ x ∈ seen) → (lookupGate s' 0 x).isSome = true := by
  intro L
  induction L with
  | nil =>
    intro seen s _ hseen hid
    refine ⟨s, rfl, hid, Keeps_refl s, gateCacheLe_refl s, ?_⟩
    intro x hx
    rcases hx with hx | hx
    · cases hx
    · exact hseen x hx
  | cons g rest ih =>
    intro seen s hcb hseen hid
    rcases hcb with ⟨hg, hrest⟩
    by_cases hcache : (lookupGate s 0 g).isSome = true
    · have heq : processListWith prev cs 0 (g :: rest) s =
          processListWith prev cs 0 rest s := by
        rw [processListWith_cons, if_pos hcache]
      have hseen' : ∀ x ∈ g :: seen, (lookupGate s 0 x).isSome = true := by
        intro x hx
        rcases List.mem_cons.mp hx with rfl | hx
        · exact hcache
        · exact hseen x hx
      rcases ih (g :: seen) s hrest hseen' hid with ⟨s', hrun, hid', hk, hle, hall⟩
      refine ⟨s', heq.trans hrun, hid', hk, hle, ?_⟩
      intro x hx
      rcases hx with hx | hx
      · rcases List.mem_cons.mp hx with rfl | hx
        · exact hall x (Or.inr (List.mem_cons_self x seen))
        · exact hall x (Or.inl hx)
      · exact hall x (Or.inr (List.mem_cons_of_mem g hx))
    · have hch : ∀ c ∈ children g, (lookupGate s 0 c).isSome = true := by
        intro c hc
        exact hseen c (hg c hc)
      rcases computeSub0_id prev cs g s hid hch with ⟨s1, hcs, hid1, hk1, hle1⟩
      have heq : processListWith prev cs 0 (g :: rest) s =
          processListWith prev cs 0 rest (insertGate s1 0 g g) := by
        rw [processListWith_cons, if_neg hcache, hcs]
      have hid2 : IdCache0 (insertGate s1 0 g g) := by
        refine ⟨?_, ?_⟩
        · intro g2 v h
          rw [lookupGate_insertGate] at h
          by_cases he : ((0 : Nat), g2) = (0, g)
          · rw [if_pos he] at h
            cases h
            cases he
            rfl
          · rw [if_neg he] at h
            exact hid1.1 g2 v h
        · intro name v h
          rw [lookupInput_insertGate] at h
          exact hid1.2 name v h
      have hle2 : gateCacheLe s (insertGate s1 0 g g) :=
        gateCacheLe_trans hle1 (gateCacheLe_insertGate s1 0 g g)
      have hseen' : ∀ x ∈ g :: seen, (lookupGate (insertGate s1 0 g g) 0 x).isSome = true := by
        intro x hx
        rcases List.mem_cons.mp hx with rfl | hx
        · rw [lookupGate_insertGate, if_pos rfl]
          rfl
        · exact hle2 0 x (hseen x hx)
      rcases ih (g :: seen) (insertGate s1 0 g g) hrest hseen' hid2
        with ⟨s', hrun, hid', hk, hle, hall⟩
      refine ⟨s', heq.trans hrun, hid',
        Keeps_trans (Keeps_trans hk1 ⟨rfl, rfl, rfl⟩) hk, gateCacheLe_trans hle2 hle, ?_⟩
      intro x hx
      rcases hx with hx | hx
      · rcases List.mem_cons.mp hx with rfl | hx
        · exact hall x (Or.inr (List.mem_cons_self x seen))
        · exact hall x (Or.inl hx)
      · exact hall x (Or.inr (List.mem_cons_of_mem g hx))

theorem mapGateAt0_id (cs : List Circuit) (g : Gate) (s : CState) (hid : IdCache0 s) :
    ∃ s', mapGateAt cs 0 g s = .ok (g, s') ∧ IdCache0 s' ∧ Keeps s s' := by
  rcases processList0_id (fun _ _ => .error .missingInput) cs (postVisit g) [] s
    (ChildrenBefore_postVisit g []) (by intro x hx; cases hx) hid
    with ⟨s1, hrun, hid1, hk1, _, hall⟩
  rcases Option.isSome_iff_exists.mp (hall g (Or.inl (self_mem_postVisit g))) with ⟨v, hv⟩
  have hvg := hid1.1 g v hv
  rw [hvg] at hv
  refine ⟨s1, ?_, hid1, hk1⟩
  show map_gateWith (fun _ _ => .error .missingInput) cs 0 g s = .ok (g, s1)
  unfold map_gateWith
  rw [hrun]
  simp only [hv]

theorem allocate_name_of_fresh (a : NameAllocator) (hint : String)
    (h : hint ∉ a.used_names) :
    allocate_name a hint = (hint, ⟨hint :: a.used_names, a.counters⟩) := by
  unfold allocate_name
  rw [if_neg h]

theorem runOutputs_id (cs : List Circuit) :
    ∀ (outs : List (Gate × String)) (s : CState),
      IdCache0 s →
      ((outs.map Prod.snd).filter (fun n => n ≠ "")).Nodup →
      (∀ n ∈ outs.map Prod.snd, n ≠ "" → n ∉ s.output_name_allocator.used_names) →
      ∃ s', runOutputs cs (outs.map (fun q => (0, q.1, q.2))) s = .ok (outs, s') ∧
        s'.new_input_name_sequence = s.new_input_name_sequence := by
  intro outs
  induction outs with
  | nil =>
    intro s hid _ _
    exact ⟨s, rfl, rfl⟩
  | cons q rest ih =>
    intro s hid hnodup hfresh
    obtain ⟨g, name⟩ := q
    by_cases hne : name = ""
    · subst hne
      have halloc : allocate_new_output_name s "" = ("", s) := rfl
      rcases mapGateAt0_id cs g s hid with ⟨s2, hmg, hid2, hk2⟩
      have hrest_nodup : ((rest.map Prod.snd).filter (fun n => n ≠ "")).Nodup := by
        simpa using hnodup
      have hrest_fresh : ∀ n ∈ rest.map Prod.snd, n ≠ "" →
          n ∉ s2.output_name_allocator.used_names := by
        intro n hn hne2
        rw [hk2.2.1]
        exact hfresh n (by simp [hn]) hne2
      rcases ih s2 hid2 hrest_nodup hrest_fresh with ⟨s', hrun, hni⟩
      refine ⟨s', ?_, hni.trans hk2.2.2⟩
      show runOutputs cs ((0, g, "") :: rest.map (fun q => (0, q.1, q.2))) s = _
      rw [runOutputs_cons, halloc]
      simp only [hmg, hrun]
    · have hmem : name ∉ s.output_name_allocator.used_names :=
        hfresh name (by simp) hne
      have hallocn := allocate_name_of_fresh s.output_name_allocator name hmem
      have halloc : allocate_new_output_name s name =
          (name, { s with output_name_allocator :=
            ⟨name :: s.output_name_allocator.used_names, s.output_name_allocator.counters⟩ }) := by
        unfold allocate_new_output_name
        rw [if_neg (by simpa [String.isEmpty_iff] using hne), hallocn]
      set s1 := { s with output_name_allocator :=
        (⟨name :: s.output_name_allocator.used_names, s.output_name_allocator.counters⟩ :
          NameAllocator) } with hs1
      have hid1 : IdCache0 s1 := hid
      rcases mapGateAt0_id cs g s1 hid1 with ⟨s2, hmg, hid2, hk2⟩
      have hrest_nodup : ((rest.map Prod.snd).filter (fun n => n ≠ "")).Nodup := by
        have : ((( (g, name) :: rest).map Prod.snd).filter (fun n => n ≠ "")) =
            name :: (rest.map Prod.snd).filter (fun n => n ≠ "") := by
          simp [hne]
        rw [this] at hnodup
        exact (List.nodup_cons.mp hnodup).2
      have hname_notin : name ∉ (rest.map Prod.snd).filter (fun n => n ≠ "") := by
        have : ((( (g, name) :: rest).map Prod.snd).filter (fun n => n ≠ "")) =
            name :: (rest.map Prod.snd).filter (fun n => n ≠ "") := by
          simp [hne]
        rw [this] at hnodup
        exact (List.nodup_cons.mp hnodup).1
      have hrest_fresh : ∀ n ∈ rest.map Prod.snd, n ≠ "" →
          n ∉ s2.output_name_allocator.used_names := by
        intro n hn hne2
        rw [hk2.2.1, hs1]
        intro hin
        rcases List.mem_cons.mp hin with rfl | hin
        · exact hname_notin (List.mem_filter.mpr ⟨hn, by simpa using hne2⟩)
        · exact hfresh n (by simp [hn]) hne2 hin
      rcases ih s2 hid2 hrest_nodup hrest_fresh with ⟨s', hrun, hni⟩
      refine ⟨s', ?_, ?_⟩
      · show runOutputs cs ((0, g, name) :: rest.map (fun q => (0, q.1, q.2))) s = _
        rw [runOutputs_cons, halloc]
        simp only [hmg, hrun]
      · rw [hni, hk2.2.2, hs1]

theorem overhangOutputs_single (c : Circuit) :
    overhangOutputs [c] = c.outputs.map (fun q => (0, q.1, q.2)) := by
  unfold overhangOutputs
  simp

/-- C4 (amended): concatenating a single-element list `[C]` returns `C`
observably unchanged — same input names in the same order, same output
gates and names — provided the non-empty output names of `C` are pairwise
distinct (otherwise the output-name allocator renames the repeats). -/
theorem C4_concatenate_single (c : Circuit) (hwf : wellFormed c)
    (hnames : ((c.outputs.map Prod.snd).filter (fun n => n ≠ "")).Nodup) :
    concatenate [c] = .ok c := by
  have hid : IdCache0 (initState [c]) := by
    constructor
    · intro g v h
      simp [lookupGate, initState, alookup] at h
    · intro name v h
      simp [lookupInput, initState, alookup] at h
  rcases runOutputs_id [c] c.outputs (initState [c]) hid hnames
    (by
      intro n hn hne
      show n ∉ ([] : List String)
      simp) with ⟨s', hrun, hni⟩
  have hcc : concatenate [c] =
      match runOutputs [c] (overhangOutputs [c]) (initState [c]) with
      | .error e => .error e
      | .ok (outs, s) => .ok ⟨s.new_input_name_sequence, outs⟩ := rfl
  rw [hcc, overhangOutputs_single, hrun]
  have hinit : (initState [c]).new_input_name_sequence = c.inputs := rfl
  show Except.ok (⟨s'.new_input_name_sequence, c.outputs⟩ : Circuit) = Except.ok c
  rw [hni, hinit]

/-- Counterexample to C4 as stated: a well-formed circuit (distinct inputs,
only declared variables referenced) whose two outputs share the name `o` is
not returned unchanged — the second output is renamed `o_1`. -/
theorem C4_concatenate_single_counterexample :
    wellFormed ⟨["a"], [(.Variable "a", "o"), (.Variable "a", "o")]⟩ ∧
    concatenate [⟨["a"], [(.Variable "a", "o"), (.Variable "a", "o")]⟩] =
      .ok ⟨["a"], [(.Variable "a", "o"), (.Variable "a", "o_1")]⟩ ∧
    concatenate [⟨["a"], [(.Variable "a", "o"), (.Variable "a", "o")]⟩] ≠
      .ok ⟨["a"], [(.Variable "a", "o"), (.Variable "a", "o")]⟩ := by
  refine ⟨by decide, by decide, by decide⟩

/-- Witness for C4: a two-output circuit with distinct output names is
returned unchanged. -/
theorem C4_concatenate_single_witness :
    concatenate [⟨["a", "b"], [(.Conjunction (.Variable "a") (.Variable "b"), "o"),
      (.Variable "a", "")]⟩] =
      .ok ⟨["a", "b"], [(.Conjunction (.Variable "a") (.Variable "b"), "o"),
        (.Variable "a", "")]⟩ :=
  C4_concatenate_single _ (by decide) (by decide)

/-- Intended assignment for the gates of circuit `i` in a concatenation
chain evaluated under `a`: circuit 0 reads the external inputs directly, and
an input of circuit `i + 1` reads the evaluation of the feeding output of
circuit `i` (names with no position fall back to `a`; they do not occur for
well-formed fully-fed chains). -/
def chainAsn (cs : List Circuit) (a : String → Bool) : Nat → String → Bool
  | 0 => a
  | i + 1 => fun name =>
    match lastIdxOf (cs.getD (i + 1) default).inputs name with
    | some p =>
      evalGate (chainAsn cs a i) ((cs.getD i default).outputs.getD p (.Constant false, "")).1
    | none => a name

/-- Semantic correctness of the substitution caches: every cached rewriting
evaluates, under the external assignment `a`, to the source gate's value
under its circuit's chain assignment. -/
def SemCache (cs : List Circuit) (a : String → Bool) (s : CState) : Prop :=
  (∀ ci g v, lookupGate s ci g = some v →
    evalGate a v = evalGate (chainAsn cs a ci) g) ∧
  (∀ ci name v, lookupInput s ci name = some v →
    evalGate a v = chainAsn cs a ci name)

theorem SemCache_insertInput (cs : List Circuit) (a : String → Bool) (s : CState)
    (ci : Nat) (name : String) (sub : Gate) (hs : SemCache cs a s)
    (hv : evalGate a sub = chainAsn cs a ci name) :
    SemCache cs a (insertInput s ci name sub) := by
  constructor
  · intro ci' g v h
    rw [lookupGate_insertInput] at h
    exact hs.1 ci' g v h
  · intro ci' name' v h
    rw [lookupInput_insertInput] at h
    by_cases he : (ci', name') = (ci, name)
    · rw [if_pos he] at h
      cases h
      cases he
      exact hv
    · rw [if_neg he] at h
      exact hs.2 ci' name' v h

theorem SemCache_insertGate (cs : List Circuit) (a : String → Bool) (s : CState)
    (ci : Nat) (g sub : Gate) (hs : SemCache cs a s)
    (hv : evalGate a sub = evalGate (chainAsn cs a ci) g) :
    SemCache cs a (insertGate s ci g sub) := by
  constructor
  · intro ci' g' v h
    rw [lookupGate_insertGate] at h
    by_cases he : (ci', g') = (ci, g)
    · rw [if_pos he] at h
      cases h
      cases he
      exact hv
    · rw [if_neg he] at h
      exact hs.1 ci' g' v h
  · intro ci' name' v h
    rw [lookupInput_insertGate] at h
    exact hs.2 ci' name' v h

theorem map_input_sem (cs : List Circuit) (a : String → Bool)
    (hff : ∀ i, i + 1 < cs.length →
      (cs.getD (i + 1) default).inputs.length ≤ (cs.getD i default).outputs.length)
    (hwfo : ∀ j, j < cs.length → wfOutputs cs j)
    (prev : Gate → CState → Except CPanic (Gate × CState)) (ci : Nat)
    (hci : ci < cs.length)
    (hprevS : ci ≠ 0 → ∀ g2 s2, (∀ v ∈ gateVars g2, v ∈ (cs.getD (ci - 1) default).inputs) →
      SemCache cs a s2 →
      ∃ g' s', prev g2 s2 = .ok (g', s') ∧ SemCache cs a s' ∧ Keeps s2 s' ∧
        gateCacheLe s2 s' ∧ evalGate a g' = evalGate (chainAsn cs a (ci - 1)) g2)
    (name : String) (s : CState) (hname : name ∈ (cs.getD ci default).inputs)
    (hs : SemCache cs a s) :
    ∃ g' s', map_inputWith prev cs ci name s = .ok (g', s') ∧ SemCache cs a s' ∧
      Keeps s s' ∧ gateCacheLe s s' ∧ evalGate a g' = chainAsn cs a ci name := by
  cases hmemo : lookupInput s ci name with
  | some g =>
    have heq : map_inputWith prev cs ci name s = .ok (g, s) := by
      unfold map_inputWith
      simp only [hmemo]
    exact ⟨g, s, heq, hs, Keeps_refl s, gateCacheLe_refl s, hs.2 ci name g hmemo⟩
  | none =>
    by_cases hci0 : ci = 0
    · subst hci0
      have heq : map_inputWith prev cs 0 name s =
          .ok (Gate.Variable name, insertInput s 0 name (Gate.Variable name)) := by
        unfold map_inputWith
        simp only [hmemo]
        rfl
      refine ⟨_, _, heq, ?_, ⟨rfl, rfl, rfl⟩, gateCacheLe_insertInput s 0 name _, rfl⟩
      exact SemCache_insertInput cs a s 0 name _ hs rfl
    · rcases Option.isSome_iff_exists.mp (lastIdxOf_isSome _ _ hname) with ⟨p, hidx⟩
      have hp : p < (cs.getD ci default).inputs.length := lastIdxOf_lt _ _ _ hidx
      have hpout : p < (cs.getD (ci - 1) default).outputs.length := by
        obtain ⟨m, rfl⟩ : ∃ m, ci = m + 1 := ⟨ci - 1, by omega⟩
        have := hff m hci
        simp only [Nat.add_sub_cancel]
        omega
      have hout : (cs.getD (ci - 1) default).outputs.get? p =
          some ((cs.getD (ci - 1) default).outputs.getD p (.Constant false, "")) := by
        rw [List.get?_eq_getElem?, List.getElem?_eq_getElem hpout,
          List.getD_eq_getElem _ _ hpout]
      have houtmem : (cs.getD (ci - 1) default).outputs.getD p (.Constant false, "") ∈
          (cs.getD (ci - 1) default).outputs := by
        rw [List.getD_eq_getElem _ _ hpout]
        exact List.getElem_mem hpout
      have hvars : ∀ v ∈ gateVars
            ((cs.getD (ci - 1) default).outputs.getD p (.Constant false, "")).1,
          v ∈ (cs.getD (ci - 1) default).inputs := by
        intro v hv
        exact hwfo (ci - 1) (by omega) _ houtmem v hv
      rcases hprevS hci0 ((cs.getD (ci - 1) default).outputs.getD p (.Constant false, "")).1 s
        hvars hs with ⟨g', s1, hprev, hs1, hk1, hle1, heval⟩
      have heq : map_inputWith prev cs ci name s =
          .ok (g', insertInput s1 ci name g') := by
        unfold map_inputWith
        simp only [hmemo, if_neg hci0, hidx, hout, hprev]
      have hvalue : evalGate a g' = chainAsn cs a ci name := by
        obtain ⟨m, rfl⟩ : ∃ m, ci = m + 1 := ⟨ci - 1, by omega⟩
        show evalGate a g' =
          match lastIdxOf (cs.getD (m + 1) default).inputs name with
          | some p =>
            evalGate (chainAsn cs a m) ((cs.getD m default).outputs.getD p (.Constant false, "")).1
          | none => a name
        rw [hidx]
        simp only [Nat.add_sub_cancel] at heval
        simpa using heval
      refine ⟨g', insertInput s1 ci name g', heq, ?_,
        Keeps_trans hk1 ⟨rfl, rfl, rfl⟩,
        gateCacheLe_trans hle1 (gateCacheLe_insertInput s1 ci name g'), hvalue⟩
      exact SemCache_insertInput cs a s1 ci name g' hs1 hvalue

theorem computeSub_sem (cs : List Circuit) (a : String → Bool)
    (hff : ∀ i, i + 1 < cs.length →
      (cs.getD (i + 1) default).inputs.length ≤ (cs.getD i default).outputs.length)
    (hwfo : ∀ j, j < cs.length → wfOutputs cs j)
    (prev : Gate → CState → Except CPanic (Gate × CState)) (ci : Nat)
    (hci : ci < cs.length)
    (hprevS : ci ≠ 0 → ∀ g2 s2, (∀ v ∈ gateVars g2, v ∈ (cs.getD (ci - 1) default).inputs) →
      SemCache cs a s2 →
      ∃ g' s', prev g2 s2 = .ok (g', s') ∧ SemCache cs a s' ∧ Keeps s2 s' ∧
        gateCacheLe s2 s' ∧ evalGate a g' = evalGate (chainAsn cs a (ci - 1)) g2)
    (g : Gate) (s : CState)
    (hch : ∀ c ∈ children g, (lookupGate s ci c).isSome = true)
    (hvars : ∀ v ∈ gateVars g, v ∈ (cs.getD ci default).inputs)
    (hs : SemCache cs a s) :
    ∃ g' s', computeSubWith prev cs ci g s = .ok (g', s') ∧ SemCache cs a s' ∧
      Keeps s s' ∧ gateCacheLe s s' ∧ evalGate a g' = evalGate (chainAsn cs a ci) g := by
  cases g with
  | Variable name =>
    rcases map_input_sem cs a hff hwfo prev ci hci hprevS name s
      (hvars name (by simp [gateVars])) hs with ⟨g', s', heq, hs', hk, hle, hval⟩
    exact ⟨g', s', heq, hs', hk, hle, hval⟩
  | Constant b =>
    exact ⟨.Constant b, s, rfl, hs, Keeps_refl s, gateCacheLe_refl s, rfl⟩
  | Negation inner =>
    rcases Option.isSome_iff_exists.mp (hch inner (by simp [children])) with ⟨v, hv⟩
    have heq : computeSubWith prev cs ci (.Negation inner) s = .ok (.Negation v, s) := by
      unfold computeSubWith
      simp only [hv]
    refine ⟨.Negation v, s, heq, hs, Keeps_refl s, gateCacheLe_refl s, ?_⟩
    simp [evalGate, hs.1 ci inner v hv]
  | Conjunction l r =>
    rcases Option.isSome_iff_exists.mp (hch l (by simp [children])) with ⟨vl, hvl⟩
    rcases Option.isSome_iff_exists.mp (hch r (by simp [children])) with ⟨vr, hvr⟩
    have heq : computeSubWith prev cs ci (.Conjunction l r) s =
        .ok (.Conjunction vl vr, s) := by
      unfold computeSubWith
      simp only [hvl, hvr]
    refine ⟨.Conjunction vl vr, s, heq, hs, Keeps_refl s, gateCacheLe_refl s, ?_⟩
    simp [evalGate, hs.1 ci l vl hvl, hs.1 ci r vr hvr]
  | Disjunction l r =>
    rcases Option.isSome_iff_exists.mp (hch l (by simp [children])) with ⟨vl, hvl⟩
    rcases Option.isSome_iff_exists.mp (hch r (by simp [children])) with ⟨vr, hvr⟩
    have heq : computeSubWith prev cs ci (.Disjunction l r) s =
        .ok (.Disjunction vl vr, s) := by
      unfold computeSubWith
      simp only [hvl, hvr]
    refine ⟨.Disjunction vl vr, s, heq, hs, Keeps_refl s, gateCacheLe_refl s, ?_⟩
    simp [evalGate, hs.1 ci l vl hvl, hs.1 ci r vr hvr]
  | Xor l r =>
    rcases Option.isSome_iff_exists.mp (hch l (by simp [children])) with ⟨vl, hvl⟩
    rcases Option.isSome_iff_exists.mp (hch r (by simp [children])) with ⟨vr, hvr⟩
    have heq : computeSubWith prev cs ci (.Xor l r) s = .ok (.Xor vl vr, s) := by
      unfold computeSubWith
      simp only [hvl, hvr]
    refine ⟨.Xor vl vr, s, heq, hs, Keeps_refl s, gateCacheLe_refl s, ?_⟩
    simp [evalGate, hs.1 ci l vl hvl, hs.1 ci r vr hvr]

theorem processList_sem (cs : List Circuit) (a : String → Bool)
    (hff : ∀ i, i + 1 < cs.length →
      (cs.getD (i + 1) default).inputs.length ≤ (cs.getD i default).outputs.length)
    (hwfo : ∀ j, j < cs.length → wfOutputs cs j)
    (prev : Gate → CState → Except CPanic (Gate × CState)) (ci : Nat)
    (hci : ci < cs.length)
    (hprevS : ci ≠ 0 → ∀ g2 s2, (∀ v ∈ gateVars g2, v ∈ (cs.getD (ci - 1) default).inputs) →
      SemCache cs a s2 →
      ∃ g' s', prev g2 s2 = .ok (g', s') ∧ SemCache cs a s' ∧ Keeps s2 s' ∧
        gateCacheLe s2 s' ∧ evalGate a g' = evalGate (chainAsn cs a (ci - 1)) g2) :
    ∀ (L seen : List Gate) (s : CState),
      ChildrenBefore seen L →
      (∀ x ∈ seen, (lookupGate s ci x).isSome = true) →
      (∀ x ∈ L, ∀ v ∈ gateVars x, v ∈ (cs.getD ci default).inputs) →
      SemCache cs a s →
      ∃ s', processListWith prev cs ci L s = .ok s' ∧ SemCache cs a s' ∧ Keeps s s' ∧
        gateCacheLe s s' ∧
        ∀ x, (x ∈ L ∨ x ∈ seen) → (lookupGate s' ci x).isSome = true := by
  intro L
  induction L with
  | nil =>
    intro seen s _ hseen _ hs
    refine ⟨s, rfl, hs, Keeps_refl s, gateCacheLe_refl s, ?_⟩
    intro x hx
    rcases hx with hx | hx
    · cases hx
    · exact hseen x hx
  | cons g rest ih =>
    intro seen s hcb hseen hvars hs
    rcases hcb with ⟨hg, hrest⟩
    by_cases hcache : (lookupGate s ci g).isSome = true
    · have heq : processListWith prev cs ci (g :: rest) s =
          processListWith prev cs ci rest s := by
        rw [processListWith_cons, if_pos hcache]
      have hseen2 : ∀ x ∈ g :: seen, (lookupGate s ci x).isSome = true := by
        intro x hx
        rcases List.mem_cons.mp hx with rfl | hx
        · exact hcache
        · exact hseen x hx
      rcases ih (g :: seen) s hrest hseen2
        (fun x hx => hvars x (List.mem_cons_of_mem g hx)) hs
        with ⟨s', hrun, hs', hk, hle, hall⟩
      rw [heq]
      refine ⟨s', hrun, hs', hk, hle, ?_⟩
      intro x hx
      rcases hx with hx | hx
      · rcases List.mem_cons.mp hx with rfl | hx
        · exact hall x (Or.inr (List.mem_cons_self x seen))
        · exact hall x (Or.inl hx)
      · exact hall x (Or.inr (List.mem_cons_of_mem g hx))
    · have hch : ∀ c ∈ children g, (lookupGate s ci c).isSome = true := by
        intro c hc
        exact hseen c (hg c hc)
      rcases computeSub_sem cs a hff hwfo prev ci hci hprevS g s hch
        (fun v hv => hvars g (List.mem_cons_self g rest) v hv) hs
        with ⟨sub, s1, hcs, hs1, hk1, hle1, heval⟩
      have heq : processListWith prev cs ci (g :: rest) s =
          processListWith prev cs ci rest (insertGate s1 ci g sub) := by
        rw [processListWith_cons, if_neg hcache, hcs]
      have hs2 : SemCache cs a (insertGate s1 ci g sub) :=
        SemCache_insertGate cs a s1 ci g sub hs1 heval
      have hk2 : Keeps s (insertGate s1 ci g sub) := Keeps_trans hk1 ⟨rfl, rfl, rfl⟩
      have hle2 : gateCacheLe s (insertGate s1 ci g sub) :=
        gateCacheLe_trans hle1 (gateCacheLe_insertGate s1 ci g sub)
      have hgcached : (lookupGate (insertGate s1 ci g sub) ci g).isSome = true := by
        rw [lookupGate_insertGate, if_pos rfl]
        rfl
      have hseen2 : ∀ x ∈ g :: seen,
          (lookupGate (insertGate s1 ci g sub) ci x).isSome = true := by
        intro x hx
        rcases List.mem_cons.mp hx with rfl | hx
        · exact hgcached
        · exact hle2 ci x (hseen x hx)
      rcases ih (g :: seen) (insertGate s1 ci g sub) hrest hseen2
        (fun x hx => hvars x (List.mem_cons_of_mem g hx)) hs2
        with ⟨s', hrun, hs', hk, hle, hall⟩
      rw [heq]
      refine ⟨s', hrun, hs', Keeps_trans hk2 hk, gateCacheLe_trans hle2 hle, ?_⟩
      intro x hx
      rcases hx with hx | hx
      · rcases List.mem_cons.mp hx with rfl | hx
        · exact hall x (Or.inr (List.mem_cons_self x seen))
        · exact hall x (Or.inl hx)
      · exact hall x (Or.inr (List.mem_cons_of_mem g hx))

theorem map_gateWith_sem (cs : List Circuit) (a : String → Bool)
    (hff : ∀ i, i + 1 < cs.length →
      (cs.getD (i + 1) default).inputs.length ≤ (cs.getD i default).outputs.length)
    (hwfo : ∀ j, j < cs.length → wfOutputs cs j)
    (prev : Gate → CState → Except CPanic (Gate × CState)) (ci : Nat)
    (hci : ci < cs.length)
    (hprevS : ci ≠ 0 → ∀ g2 s2, (∀ v ∈ gateVars g2, v ∈ (cs.getD (ci - 1) default).inputs) →
      SemCache cs a s2 →
      ∃ g' s', prev g2 s2 = .ok (g', s') ∧ SemCache cs a s' ∧ Keeps s2 s' ∧
        gateCacheLe s2 s' ∧ evalGate a g' = evalGate (chainAsn cs a (ci - 1)) g2)
    (g : Gate) (s : CState)
    (hvars : ∀ v ∈ gateVars g, v ∈ (cs.getD ci default).inputs)
    (hs : SemCache cs a s) :
    ∃ g' s', map_gateWith prev cs ci g s = .ok (g', s') ∧ SemCache cs a s' ∧
      Keeps s s' ∧ gateCacheLe s s' ∧ evalGate a g' = evalGate (chainAsn cs a ci) g := by
  rcases processList_sem cs a hff hwfo prev ci hci hprevS (postVisit g) [] s
    (ChildrenBefore_postVisit g []) (by intro x hx; cases hx)
    (fun x hx v hv => hvars v (postVisit_vars g x hx v hv)) hs
    with ⟨s1, hrun, hs1, hk1, hle1, hall⟩
  rcases Option.isSome_iff_exists.mp (hall g (Or.inl (self_mem_postVisit g)))
    with ⟨sub, hsub⟩
  have heq : map_gateWith prev cs ci g s = .ok (sub, s1) := by
    unfold map_gateWith
    rw [hrun]
    simp only [hsub]
  exact ⟨sub, s1, heq, hs1, hk1, hle1, hs1.1 ci g sub hsub⟩

theorem mapGateAt_sem (cs : List Circuit) (a : String → Bool)
    (hff : ∀ i, i + 1 < cs.length →
      (cs.getD (i + 1) default).inputs.length ≤ (cs.getD i default).outputs.length)
    (hwfo : ∀ j, j < cs.length → wfOutputs cs j) :
    ∀ ci : Nat, ci < cs.length →
      ∀ g s, (∀ v ∈ gateVars g, v ∈ (cs.getD ci default).inputs) →
        SemCache cs a s →
        ∃ g' s', mapGateAt cs ci g s = .ok (g', s') ∧ SemCache cs a s' ∧
          Keeps s s' ∧ gateCacheLe s s' ∧ evalGate a g' = evalGate (chainAsn cs a ci) g := by
  intro ci
  induction ci with
  | zero =>
    intro hci g s hvars hs
    exact map_gateWith_sem cs a hff hwfo (fun _ _ => .error .missingInput) 0 hci
      (fun hc => absurd rfl hc) g s hvars hs
  | succ n ih =>
    intro hci g s hvars hs
    apply map_gateWith_sem cs a hff hwfo (mapGateAt cs n) (n + 1) hci _ g s hvars hs
    intro _ g2 s2 hv2 hs2
    have h := ih (by omega) g2 s2 (by simpa using hv2) hs2
    simpa using h

theorem allocate_new_output_name_keeps (s : CState) (h : String) :
    (allocate_new_output_name s h).2.input_name_substitutions =
        s.input_name_substitutions ∧
    (allocate_new_output_name s h).2.gate_substitutions = s.gate_substitutions ∧
    (allocate_new_output_name s h).2.input_name_allocator = s.input_name_allocator ∧
    (allocate_new_output_name s h).2.new_input_name_sequence =
        s.new_input_name_sequence := by
  unfold allocate_new_output_name
  by_cases he : h.isEmpty
  · simp [he]
  · simp [he]

theorem SemCache_of_subs_eq (cs : List Circuit) (a : String → Bool) (s s1 : CState)
    (hg : s1.gate_substitutions = s.gate_substitutions)
    (hi : s1.input_name_substitutions = s.input_name_substitutions)
    (hs : SemCache cs a s) : SemCache cs a s1 := by
  constructor
  · intro ci g v h
    apply hs.1 ci g v
    rw [← h]
    show alookup s.gate_substitutions (ci, g) = alookup s1.gate_substitutions (ci, g)
    rw [hg]
  · intro ci name v h
    apply hs.2 ci name v
    rw [← h]
    show alookup s.input_name_substitutions (ci, name) =
      alookup s1.input_name_substitutions (ci, name)
    rw [hi]

theorem runOutputs_sem (cs : List Circuit) (a : String → Bool)
    (hff : ∀ i, i + 1 < cs.length →
      (cs.getD (i + 1) default).inputs.length ≤ (cs.getD i default).outputs.length)
    (hwfo : ∀ j, j < cs.length → wfOutputs cs j) :
    ∀ (L : List (Nat × Gate × String)) (s : CState),
      (∀ t ∈ L, t.1 < cs.length ∧
        ∀ v ∈ gateVars t.2.1, v ∈ (cs.getD t.1 default).inputs) →
      SemCache cs a s →
      ∃ outs s', runOutputs cs L s = .ok (outs, s') ∧ SemCache cs a s' ∧
        s'.input_name_allocator = s.input_name_allocator ∧
        s'.new_input_name_sequence = s.new_input_name_sequence ∧
        outs.map (fun q => evalGate a q.1) =
          L.map (fun t => evalGate (chainAsn cs a t.1) t.2.1) := by
  intro L
  induction L with
  | nil =>
    intro s _ hs
    exact ⟨[], s, rfl, hs, rfl, rfl, rfl⟩
  | cons t rest ih =>
    intro s hL hs
    obtain ⟨ci, g, name⟩ := t
    cases halloc : allocate_new_output_name s name with
    | mk name1 s1 =>
      have hkeep := allocate_new_output_name_keeps s name
      rw [halloc] at hkeep
      have hs1 : SemCache cs a s1 :=
        SemCache_of_subs_eq cs a s s1 hkeep.2.1 hkeep.1 hs
      rcases mapGateAt_sem cs a hff hwfo ci
        (hL (ci, g, name) (List.mem_cons_self _ _)).1 g s1
        (hL (ci, g, name) (List.mem_cons_self _ _)).2 hs1
        with ⟨g1, s2, hmg, hs2, hk2, hle2, heval⟩
      rcases ih s2 (fun t ht => hL t (List.mem_cons_of_mem _ ht)) hs2
        with ⟨outs, s3, hrun, hs3, hia3, hni3, hmap⟩
      refine ⟨(g1, name1) :: outs, s3, ?_, hs3, ?_, ?_, ?_⟩
      · rw [runOutputs_cons]
        simp only [halloc, hmg, hrun]
      · rw [hia3, hk2.1, hkeep.2.2.1]
      · rw [hni3, hk2.2.2, hkeep.2.2.2]
      · simp only [List.map_cons, hmap, heval]

theorem overhangOutputs_pair (c0 c1 : Circuit) :
    overhangOutputs [c0, c1] =
      c1.outputs.map (fun q => ((1 : Nat), q.1, q.2)) ++
      (c0.outputs.drop c1.inputs.eraseDups.length).map (fun q => ((0 : Nat), q.1, q.2)) := by
  have h : overhangOutputs [c0, c1] =
      c1.outputs.map (fun q => ((1 : Nat), q.1, q.2)) ++
      ((c0.outputs.drop c1.inputs.eraseDups.length).map (fun q => ((0 : Nat), q.1, q.2)) ++
        []) := rfl
  rw [h, List.append_nil]

theorem chainAsn_zero (cs : List Circuit) (a : String → Bool) :
    chainAsn cs a 0 = a := rfl

theorem chainAsn_succ (cs : List Circuit) (a : String → Bool) (i : Nat) (name : String) :
    chainAsn cs a (i + 1) name =
      match lastIdxOf (cs.getD (i + 1) default).inputs name with
      | some p =>
        evalGate (chainAsn cs a i) ((cs.getD i default).outputs.getD p (.Constant false, "")).1
      | none => a name := rfl

theorem initState_semCache (cs : List Circuit) (a : String → Bool) :
    SemCache cs a (initState cs) := by
  constructor
  · intro ci g v h
    cases h
  · intro ci name v h
    cases h

/-- C1: concatenating `[C0, C1]` for well-formed circuits with
`inputs(C1) ≤ outputs(C0)` succeeds, keeps exactly the inputs of `C0` (same
names, same order), and on every assignment the result evaluates to the
evaluation of `C1` on the output vector of `C0`, followed by the overhanging
outputs of `C0` (those beyond the first `inputs(C1)` many, which `run`
appends; they vanish when `inputs(C1) = outputs(C0)`). -/
theorem C1_concatenate_pair (c0 c1 : Circuit)
    (hwf0 : wellFormed c0) (hwf1 : wellFormed c1)
    (hle : c1.inputs.length ≤ c0.outputs.length) :
    ∃ c, concatenate [c0, c1] = .ok c ∧ c.inputs = c0.inputs ∧
      ∀ a, evalOutputs c a =
        evalOn c1 (evalOutputs c0 a) ++ (evalOutputs c0 a).drop c1.inputs.length := by
  have hED : c1.inputs.eraseDups = c1.inputs := eraseDups_eq_self _ hwf1.1
  have hover := overhangOutputs_pair c0 c1
  rw [hED] at hover
  have hff : ∀ i, i + 1 < ([c0, c1] : List Circuit).length →
      (([c0, c1] : List Circuit).getD (i + 1) default).inputs.length ≤
      (([c0, c1] : List Circuit).getD i default).outputs.length := by
    intro i hi
    simp only [List.length_cons, List.length_nil] at hi
    have hi0 : i = 0 := by omega
    subst hi0
    exact hle
  have hwfo : ∀ j, j < ([c0, c1] : List Circuit).length → wfOutputs [c0, c1] j := by
    intro j hj
    simp only [List.length_cons, List.length_nil] at hj
    rcases j with _ | _ | j
    · exact fun p hp => hwf0.2 p hp
    · exact fun p hp => hwf1.2 p hp
    · omega
  have hL : ∀ t ∈ overhangOutputs [c0, c1], t.1 < ([c0, c1] : List Circuit).length ∧
      ∀ v ∈ gateVars t.2.1, v ∈ (([c0, c1] : List Circuit).getD t.1 default).inputs := by
    intro t ht
    have h := overhangOutputs_mem [c0, c1] t ht
    exact ⟨h.1, fun v hv => hwfo t.1 h.1 (t.2.1, t.2.2) h.2 v hv⟩
  obtain ⟨outs, s', hrun, _, _, hni, _⟩ :=
    runOutputs_sem [c0, c1] (fun _ => false) hff hwfo (overhangOutputs [c0, c1])
      (initState [c0, c1]) hL (initState_semCache [c0, c1] _)
  refine ⟨⟨s'.new_input_name_sequence, outs⟩, ?_, ?_, ?_⟩
  · show (match runOutputs [c0, c1] (overhangOutputs [c0, c1]) (initState [c0, c1]) with
      | Except.error e => (Except.error e : Except CPanic Circuit)
      | Except.ok (outs, s) =>
        Except.ok (⟨s.new_input_name_sequence, outs⟩ : Circuit)) =
      Except.ok (⟨s'.new_input_name_sequence, outs⟩ : Circuit)
    rw [hrun]
  · exact hni
  · intro a
    obtain ⟨outs2, s2, hrun2, _, _, _, hmap2⟩ :=
      runOutputs_sem [c0, c1] a hff hwfo (overhangOutputs [c0, c1])
        (initState [c0, c1]) hL (initState_semCache [c0, c1] a)
    have hee : (outs, s') = (outs2, s2) := Except.ok.inj (hrun.symm.trans hrun2)
    obtain ⟨h1, h2⟩ := Prod.mk.injEq _ _ _ _ ▸ hee
    subst h1
    subst h2
    show outs.map (fun q => evalGate a q.1) = _
    rw [hmap2, hover, List.map_append, List.map_map, List.map_map]
    congr 1
    · apply List.map_congr_left
      intro q hq
      show evalGate (chainAsn [c0, c1] a 1) q.1 = _
      apply evalGate_congr
      intro v hv
      have hvin : v ∈ c1.inputs := hwf1.2 q hq v hv
      rcases Option.isSome_iff_exists.mp (lastIdxOf_isSome c1.inputs v hvin) with ⟨p, hp⟩
      have hp0 : p < c0.outputs.length := lt_of_lt_of_le (lastIdxOf_lt _ _ _ hp) hle
      rw [chainAsn_succ]
      show (match lastIdxOf c1.inputs v with
        | some p => evalGate (chainAsn [c0, c1] a 0) ((c0.outputs.getD p (.Constant false, "")).1)
        | none => a v) = _
      rw [hp]
      show evalGate (chainAsn [c0, c1] a 0) (c0.outputs.getD p (.Constant false, "")).1 =
        (evalOutputs c0 a).getD p false
      rw [chainAsn_zero]
      have hp1 : p < (evalOutputs c0 a).length := by
        simpa [evalOutputs] using hp0
      rw [List.getD_eq_getElem _ _ hp1, List.getD_eq_getElem _ _ hp0]
      simp [evalOutputs]
    · show (c0.outputs.drop c1.inputs.length).map
          (fun q => evalGate (chainAsn [c0, c1] a 0) q.1) = _
      rw [chainAsn_zero]
      show (c0.outputs.drop c1.inputs.length).map (fun q => evalGate a q.1) =
        (c0.outputs.map (fun p => evalGate a p.1)).drop c1.inputs.length
      rw [List.map_drop]

/-- Counterexample to C1 as stated: with `inputs(C1)` strictly below
`outputs(C0)` the overhanging output of `C0` is appended, so the result
evaluates to a longer vector than `C1` alone — here `[true, true]` against
`[true]`. -/
theorem C1_concatenate_pair_counterexample :
    wellFormed ⟨["a"], [(.Variable "a", ""), (.Variable "a", "")]⟩ ∧
    wellFormed ⟨["b"], [(.Variable "b", "")]⟩ ∧
    (⟨["b"], [(.Variable "b", "")]⟩ : Circuit).inputs.length ≤
      (⟨["a"], [(.Variable "a", ""), (.Variable "a", "")]⟩ : Circuit).outputs.length ∧
    concatenate [⟨["a"], [(.Variable "a", ""), (.Variable "a", "")]⟩,
        ⟨["b"], [(.Variable "b", "")]⟩] =
      .ok ⟨["a"], [(.Variable "a", ""), (.Variable "a", "")]⟩ ∧
    evalOutputs ⟨["a"], [(.Variable "a", ""), (.Variable "a", "")]⟩ (fun _ => true) ≠
      evalOn ⟨["b"], [(.Variable "b", "")]⟩
        (evalOutputs ⟨["a"], [(.Variable "a", ""), (.Variable "a", "")]⟩
          (fun _ => true)) := by
  refine ⟨by decide, by decide, by decide, by decide, by decide⟩

/-- Witness for C1: a one-output circuit fed into a one-input circuit — the
concatenation exists, keeps the first circuit's inputs, and computes the
composition (with an empty overhang). -/
theorem C1_concatenate_pair_witness :
    ∃ c, concatenate [(⟨["a"], [(.Variable "a", "")]⟩ : Circuit),
        ⟨["b"], [(.Negation (.Variable "b"), "")]⟩] = .ok c ∧
      c.inputs = (⟨["a"], [(.Variable "a", "")]⟩ : Circuit).inputs ∧
      ∀ a, evalOutputs c a =
        evalOn ⟨["b"], [(.Negation (.Variable "b"), "")]⟩
          (evalOutputs ⟨["a"], [(.Variable "a", "")]⟩ a) ++
        (evalOutputs ⟨["a"], [(.Variable "a", "")]⟩ a).drop
          (⟨["b"], [(.Negation (.Variable "b"), "")]⟩ : Circuit).inputs.length :=
  C1_concatenate_pair _ _ (by decide) (by decide) (by decide)
